import Mathlib

/-!
Verification of the AVL-tree ordered map in `src/map.hpp` (`sjtu::map`).

Embedding conventions, used uniformly below:

* A C++ `Node` becomes a constructor of the inductive `Tree`: it stores the
  key-value pair, the two child subtrees, and the cached `height` field
  (`ht`).  The `parent` back-pointer is not stored: it is recoverable from
  the position of a node inside the whole tree, and upward walks along
  parent pointers are embedded as walks along a zipper context (a list of
  crumbs, one crumb per ancestor), which carries exactly the information the
  parent chain carries.
* A C++ `Node *` (a pointer handed out to clients, stable across rotations)
  is embedded as the node's allocation identifier `id : Nat`.  Every `new
  Node(...)` draws a fresh id from the owning map's allocation counter
  `nextId`.  Dereferencing a pointer is embedded as locating the unique node
  with that id (`findZipper` / `getById`); a dangling pointer (the node was
  deleted) locates nothing, and operations that would dereference it in the
  C++ source return the undefined-behaviour marker `OpRes.ub` instead of a
  result — the source performs no check there.
* The address of a `map` object (`this`) is embedded as `mapId : Nat`;
  iterator ownership checks (`pos.owner != this`) compare `mapId`s.
* `throw invalid_iterator()` / `throw index_out_of_bound()` become explicit
  error results (`OpRes.err`, `Except.error`).
* `Key` is any `LinearOrder` (the default `std::less<Key>` comparator on a
  totally ordered key type); `cmp a b` is `a < b`, and the derived
  equivalence `keyEq` is literally `!(a < b) && !(b < a)`.
-/

namespace Sjtu

/-- A subtree: either null (`leaf`) or a `Node` (source lines 379-387) with
its left child, allocation id (the embedded node address), key, mapped
value, cached `height` field, and right child. -/
inductive Tree (K V : Type) where
  | leaf
  | node (l : Tree K V) (id : Nat) (key : K) (val : V) (ht : Nat) (r : Tree K V)
deriving DecidableEq

variable {K V : Type}

/-- `heightOf` (line 422): `n ? n->height : 0` — reads the cached height. -/
def heightOf : Tree K V → Nat
  | .leaf => 0
  | .node _ _ _ _ h _ => h

/-- `update` (lines 425-430): recompute this node's cached height from the
children's cached heights, `(hl > hr ? hl : hr) + 1`. -/
def update : Tree K V → Tree K V
  | .leaf => .leaf
  | .node l i k v _ r => .node l i k v (max (heightOf l) (heightOf r) + 1) r

/-- `balance` (lines 433-434): `heightOf(right) - heightOf(left)`, a signed
difference of cached heights. -/
def balance : Tree K V → Int
  | .leaf => 0
  | .node l _ _ _ _ r => (heightOf r : Int) - (heightOf l : Int)

/-- Replace the right child, keeping everything else.  Embeds the effect of
a rotation performed on `n->right`, which re-attaches the rotated subtree to
`n` through the parent link (lines 459, 476). -/
def withRight : Tree K V → Tree K V → Tree K V
  | .leaf, _ => .leaf
  | .node l i k v h _, r' => .node l i k v h r'

/-- Replace the left child, keeping everything else (see `withRight`). -/
def withLeft : Tree K V → Tree K V → Tree K V
  | .leaf, _ => .leaf
  | .node _ i k v h r, l' => .node l' i k v h r

/-- `rotateLeft(x)` (lines 450-463): `y = x->right`, `x->right = y->left`,
`y->left = x`, then `update(x); update(y)` in that order.  The C++ function
also rewires `y` into `x`'s parent; in the embedding the caller keeps the
result in `x`'s place, which is the same rewiring.  Callers only invoke it
when `x->right` is non-null; on other shapes it is never reached and the
embedding returns the input. -/
def rotateLeft : Tree K V → Tree K V
  | .node a xi xk xv xh (.node b yi yk yv yh c) =>
      update (.node (update (.node a xi xk xv xh b)) yi yk yv yh c)
  | t => t

/-- `rotateRight(y)` (lines 467-480), mirror of `rotateLeft`:
`x = y->left`, `y->left = x->right`, `x->right = y`, `update(y); update(x)`. -/
def rotateRight : Tree K V → Tree K V
  | .node (.node a xi xk xv xh b) yi yk yv yh c =>
      update (.node a xi xk xv xh (update (.node b yi yk yv yh c)))
  | t => t

/-- `rebalanceAt(n)` (lines 483-494): `update(n)`, compute
`bf = balance(n)`; if `bf > 1` rotate the right child right first when it
leans left (`balance(n->right) < 0`), then rotate `n` left; symmetrically
when `bf < -1`; otherwise only the height update happened. -/
def rebalanceAt (t : Tree K V) : Tree K V :=
  match t with
  | .leaf => .leaf
  | .node l i k v h r =>
    let n := update (.node l i k v h r)
    if 1 < balance n then
      if balance r < 0 then rotateLeft (withRight n (rotateRight r))
      else rotateLeft n
    else if balance n < -1 then
      if 0 < balance l then rotateRight (withLeft n (rotateLeft l))
      else rotateRight n
    else n

section Ordered

variable [LinearOrder K]

/-- `keyEq` (lines 406-408): `!cmp(a, b) && !cmp(b, a)`. -/
def keyEq (a b : K) : Bool := !decide (a < b) && !decide (b < a)

/-- `findNode(key)` (lines 411-419): descend from the root; at each node
return it when `keyEq`, else go left when `cmp(key, node.key)`, else right.
The returned `Node *` is embedded as the node's id together with the stored
pair it points at. -/
def findNode (key : K) : Tree K V → Option (Nat × K × V)
  | .leaf => none
  | .node l i k v _ r =>
    if keyEq key k then some (i, k, v)
    else if key < k then findNode key l
    else findNode key r

/-- The descent-and-link part of `insert` (lines 290-319).  The C++ loop
tracks the last visited node and the side taken; the recursion is the same
descent, and on the way back out it applies `rebalanceAt` to each ancestor
of the new node in turn — exactly the `rebalanceUp(parent)` walk, which
starts at the new node's parent and runs `rebalanceAt` up to the root.
`nid` is the id drawn for the `new Node` (fresh allocation).  Returns the
new tree, the id of the returned node, and the `inserted` flag; when a
key-equivalent node is found the tree is returned untouched and no
rebalancing happens (the C++ returns early). -/
def insertAux (key : K) (v : V) (nid : Nat) : Tree K V → Tree K V × Nat × Bool
  | .leaf => (.node .leaf nid key v 1 .leaf, nid, true)
  | .node l i k v0 h r =>
    if keyEq key k then (.node l i k v0 h r, i, false)
    else if key < k then
      match insertAux key v nid l with
      | (l', rid, true) => (rebalanceAt (.node l' i k v0 h r), rid, true)
      | (_, rid, false) => (.node l i k v0 h r, rid, false)
    else
      match insertAux key v nid r with
      | (r', rid, true) => (rebalanceAt (.node l i k v0 h r'), rid, true)
      | (_, rid, false) => (.node l i k v0 h r, rid, false)

end Ordered

/-- `minNode(x)` (lines 391-395): follow left children; returns the id of
the leftmost node (the embedded `Node *`), or `none` for an empty subtree. -/
def minId : Tree K V → Option Nat
  | .leaf => none
  | .node .leaf i _ _ _ _ => some i
  | .node (.node a j b c d e) _ _ _ _ _ => minId (Tree.node a j b c d e)

/-- `maxNode(x)` (lines 399-403): follow right children. -/
def maxId : Tree K V → Option Nat
  | .leaf => none
  | .node _ i _ _ _ .leaf => some i
  | .node _ _ _ _ _ (.node a j b c d e) => maxId (Tree.node a j b c d e)

/-- One ancestor record of a node's position: whether the node is the left
or the right child of that ancestor, together with the ancestor's own data
and its other subtree.  A list of crumbs (innermost ancestor first) carries
exactly what the chain of `parent` pointers carries in the source. -/
inductive Crumb (K V : Type) where
  | fromLeft (id : Nat) (key : K) (val : V) (ht : Nat) (r : Tree K V)
  | fromRight (l : Tree K V) (id : Nat) (key : K) (val : V) (ht : Nat)
deriving DecidableEq

/-- Rebuild the whole tree from a focused subtree and its ancestor crumbs. -/
def plug : Tree K V → List (Crumb K V) → Tree K V
  | t, [] => t
  | t, .fromLeft i k v h r :: c => plug (.node t i k v h r) c
  | t, .fromRight l i k v h :: c => plug (.node l i k v h t) c

/-- The id at the root of the focused subtree (the embedded node address of
the focus); 0 is never consulted on a `leaf` focus. -/
def focusId : Tree K V → Nat
  | .leaf => 0
  | .node _ i _ _ _ _ => i

/-- The `while (x->left) x = x->left;` loop of `minNode` as a zipper
descent, recording the crumbs it walks through. -/
def zipMin : Tree K V → List (Crumb K V) → Option (Tree K V × List (Crumb K V))
  | .leaf, _ => none
  | .node .leaf i k v h r, c => some (.node .leaf i k v h r, c)
  | .node (.node a j b d e f) i k v h r, c =>
      zipMin (.node a j b d e f) (.fromLeft i k v h r :: c)

/-- The `while (x->right) x = x->right;` loop of `maxNode` as a zipper
descent. -/
def zipMax : Tree K V → List (Crumb K V) → Option (Tree K V × List (Crumb K V))
  | .leaf, _ => none
  | .node l i k v h .leaf, c => some (.node l i k v h .leaf, c)
  | .node l i k v h (.node a j b d e f), c =>
      zipMax (.node a j b d e f) (.fromRight l i k v h :: c)

/-- The upward loop of `nextNode` (lines 529-531):
`while (p && n == p->right) { n = p; p = p->parent; } return p;` —
popping `fromRight` crumbs reconstructs the subtree rooted at each `n`;
the first `fromLeft` crumb is the ancestor reached by a left-child step. -/
def zipUp : Tree K V → List (Crumb K V) → Option (Tree K V × List (Crumb K V))
  | _, [] => none
  | t, .fromRight l i k v h :: c => zipUp (.node l i k v h t) c
  | t, .fromLeft i k v h r :: c => some (.node t i k v h r, c)

/-- The upward loop of `prevNode` (lines 539-541), mirror of `zipUp`. -/
def zipUpL : Tree K V → List (Crumb K V) → Option (Tree K V × List (Crumb K V))
  | _, [] => none
  | t, .fromLeft i k v h r :: c => zipUpL (.node t i k v h r) c
  | t, .fromRight l i k v h :: c => some (.node l i k v h t, c)

/-- `nextNode(n)` (lines 526-532) at a zipper position: if `n->right`
exists, the minimum of that subtree, else the upward walk.  `none` means
the successor is null (`n` was the maximum). -/
def zipNext : Tree K V → List (Crumb K V) → Option (Tree K V × List (Crumb K V))
  | .leaf, _ => none
  | .node l i k v h (.node a j b d e f), c =>
      zipMin (.node a j b d e f) (.fromRight l i k v h :: c)
  | .node l i k v h .leaf, c => zipUp (.node l i k v h .leaf) c

/-- `prevNode(n)` (lines 536-542) at a zipper position, mirror of
`zipNext`. -/
def zipPrev : Tree K V → List (Crumb K V) → Option (Tree K V × List (Crumb K V))
  | .leaf, _ => none
  | .node (.node a j b d e f) i k v h r, c =>
      zipMax (.node a j b d e f) (.fromLeft i k v h r :: c)
  | .node .leaf i k v h r, c => zipUpL (.node .leaf i k v h r) c

/-- Locate the node with id `j` (embeds dereferencing the `Node *` `j`):
returns its subtree and ancestor crumbs.  `none` means no live node has
this address (the pointer dangles). -/
def findZipper (j : Nat) : Tree K V → List (Crumb K V) → Option (Tree K V × List (Crumb K V))
  | .leaf, _ => none
  | .node l i k v h r, c =>
    if i = j then some (.node l i k v h r, c)
    else
      match findZipper j l (.fromLeft i k v h r :: c) with
      | some z => some z
      | none => findZipper j r (.fromRight l i k v h :: c)

/-- Read the key-value pair stored in the node with id `j` (embeds
`nodePtr->value`); `none` when the pointer dangles. -/
def getById (t : Tree K V) (j : Nat) : Option (K × V) :=
  match findZipper j t [] with
  | some (.node _ _ k v _ _, _) => some (k, v)
  | _ => none

/-- `nextNode` keyed by node id.  Outer `none`: the pointer dangles (the
source would read freed memory).  `some none`: the successor is null, i.e.
the end position. -/
def nextNodeId (t : Tree K V) (j : Nat) : Option (Option Nat) :=
  match findZipper j t [] with
  | none => none
  | some (f, c) => some ((zipNext f c).map fun z => focusId z.1)

/-- `prevNode` keyed by node id (see `nextNodeId`). -/
def prevNodeId (t : Tree K V) (j : Nat) : Option (Option Nat) :=
  match findZipper j t [] with
  | none => none
  | some (f, c) => some ((zipPrev f c).map fun z => focusId z.1)

/-- The descent of `eraseNode`'s successor hunt combined with the splice
`transplant(s, s->right)` (lines 568-574) and the `rebalanceUp` walk
through the left spine of the right subtree: removes the minimum node of a
subtree, returning its id, pair and cached height (the grafted successor
keeps its stale `height` field until `rebalanceAt` reaches it) and the
remaining subtree, applying `rebalanceAt` at every node the upward walk
from the removed node's parent visits inside this subtree. -/
def eraseMin : Tree K V → Option ((Nat × K × V × Nat) × Tree K V)
  | .leaf => none
  | .node .leaf i k v h r => some ((i, k, v, h), r)
  | .node (.node a j b d e f) i k v h r =>
    match eraseMin (.node a j b d e f) with
    | some (m, l') => some (m, rebalanceAt (.node l' i k v h r))
    | none => none

/-- The `rebalanceUp` walk (lines 497-503) over the ancestors recorded in a
crumb list: starting from the replacement subtree, re-attach one ancestor
at a time and apply `rebalanceAt` to it. -/
def plugRebalance : Tree K V → List (Crumb K V) → Tree K V
  | t, [] => t
  | t, .fromLeft i k v h r :: c => plugRebalance (rebalanceAt (.node t i k v h r)) c
  | t, .fromRight l i k v h :: c => plugRebalance (rebalanceAt (.node l i k v h t)) c

/-- `eraseNode(z)` (lines 557-589) at the located position of `z`.
With zero or one child, splice the child into `z`'s place (`transplant`)
and run `rebalanceUp` from `z`'s parent (the crumbs).  With two children,
remove the successor `s` from the right subtree (`eraseMin`, which also
performs `rebalanceUp` from `s`'s old parent up through that subtree),
graft `s` into `z`'s position inheriting both children and `s`'s stale
cached height, apply `rebalanceAt` there (the same upward walk passes
through `s`'s new position), and continue up through the crumbs.  The
source's second call `rebalanceUp(parent)` re-runs `rebalanceAt` on nodes
of an already height-correct and balanced chain; by
`rebalanceAt_eq_of_ok` below such a run changes nothing, so the embedding
performs the single combined walk. -/
def eraseAtZ : Tree K V → List (Crumb K V) → Tree K V
  | .leaf, c => plugRebalance .leaf c
  | .node .leaf _ _ _ _ r, c => plugRebalance r c
  | .node (.node a j b d e f) _ _ _ _ .leaf, c => plugRebalance (.node a j b d e f) c
  | .node (.node a j b d e f) _ _ _ _ (.node a2 j2 b2 d2 e2 f2), c =>
    match eraseMin (.node a2 j2 b2 d2 e2 f2) with
    | some ((si, sk, sv, sh), r') =>
        plugRebalance (rebalanceAt (.node (.node a j b d e f) si sk sv sh r')) c
    | none => plugRebalance .leaf c

/-- `eraseNode` keyed by the node id stored in the cursor: locate the live
node with that address, then erase at its position.  `none` embeds the
undefined behaviour of erasing through a dangling pointer: the source
dereferences `z` without any liveness check. -/
def eraseById (j : Nat) (t : Tree K V) : Option (Tree K V) :=
  match findZipper j t [] with
  | none => none
  | some (f, c) => some (eraseAtZ f c)

/-- `cloneSubtree(n, parent)` (lines 513-522): allocate a new node copying
the stored pair (`new Node(n->value, parent)` initialises the height to 1),
clone both subtrees, then `update(m)`.  Ids are drawn from the allocation
counter `c` in allocation order: this node first, then the left subtree,
then the right. -/
def cloneSubtree (c : Nat) : Tree K V → Tree K V × Nat
  | .leaf => (.leaf, c)
  | .node l _ k v _ r =>
    let pl := cloneSubtree (c + 1) l
    let pr := cloneSubtree pl.2 r
    (update (.node pl.1 c k v 1 pr.1), pr.2)

/-- In-order list of (id, key, value) triples of the live nodes. -/
def entriesT : Tree K V → List (Nat × K × V)
  | .leaf => []
  | .node l i k v _ r => entriesT l ++ (i, k, v) :: entriesT r

/-- In-order key-value entries. -/
def inorderKV (t : Tree K V) : List (K × V) := (entriesT t).map fun e => (e.2.1, e.2.2)

/-- In-order keys. -/
def inorderKeys (t : Tree K V) : List K := (entriesT t).map fun e => e.2.1

/-- In-order node ids. -/
def inorderIds (t : Tree K V) : List Nat := (entriesT t).map fun e => e.1

/-- The `map` object (lines 184, 352-354): owning root and node count,
plus the embedded allocator counter (`nextId`, source of fresh node
addresses) and the embedded identity of the object itself (`mapId`, the
address of `this`). -/
structure map (K V : Type) where
  root : Tree K V
  nodeCount : Nat
  nextId : Nat
  mapId : Nat
deriving DecidableEq

/-- The iterator (lines 36-48): a node pointer (`none` = null, the end
position) and the owning container (`none` = null, default-constructed). -/
structure iterator where
  nodePtr : Option Nat
  owner : Option Nat
deriving DecidableEq

/-- Outcome of an operation that can throw `invalid_iterator` (`err`) or
dereference a dangling pointer (`ub`, undefined behaviour in the source:
no defined result exists). -/
inductive OpRes (α : Type) where
  | ok (a : α)
  | err
  | ub
deriving DecidableEq

/-- The default constructor (line 184): empty tree, zero count.  `mid` is
the address at which the object lives. -/
def mapNew (mid : Nat) : map K V := ⟨.leaf, 0, 0, mid⟩

/-- `begin()` (line 252): `iterator(minNode(root), this)`. -/
def beginIt (m : map K V) : iterator := ⟨minId m.root, some m.mapId⟩

/-- `end()` (line 260): `iterator(nullptr, this)`. -/
def endIt (m : map K V) : iterator := ⟨none, some m.mapId⟩

/-- `empty()` (line 268). -/
def mapEmpty (m : map K V) : Bool := m.nodeCount = 0

/-- `size()` (line 273). -/
def mapSize (m : map K V) : Nat := m.nodeCount

/-- `clear()` (lines 278-282): destroy all nodes, null root, zero count. -/
def mapClear (m : map K V) : map K V := { m with root := .leaf, nodeCount := 0 }

section OrderedMap

variable [LinearOrder K]

/-- `insert(value)` (lines 290-319): descend (`insertAux`); on success link
the fresh node (id `nextId`), `++nodeCount`, rebalance up, and return an
iterator to the new node with `true`; on a key-equivalent hit return an
iterator to the existing node with `false` and no mutation. -/
def mapInsert (m : map K V) (key : K) (v : V) : map K V × iterator × Bool :=
  match insertAux key v m.nextId m.root with
  | (t', rid, true) =>
      ({ root := t', nodeCount := m.nodeCount + 1, nextId := m.nextId + 1, mapId := m.mapId },
       ⟨some rid, some m.mapId⟩, true)
  | (_, rid, false) => (m, ⟨some rid, some m.mapId⟩, false)

/-- `erase(pos)` (lines 326-331): throw when `pos.owner != this` or the
node pointer is null; otherwise `eraseNode(target)` and `--nodeCount`.
When the pointer dangles the source reads freed memory: `ub`. -/
def mapErase (m : map K V) (pos : iterator) : OpRes (map K V) :=
  if pos.owner ≠ some m.mapId then .err
  else
    match pos.nodePtr with
    | none => .err
    | some tid =>
      match eraseById tid m.root with
      | some t' => .ok { m with root := t', nodeCount := m.nodeCount - 1 }
      | none => .ub

/-- `at(key)` (lines 214-218) and its const overload (220-224): the mapped
value, or `index_out_of_bound`. -/
def mapAt (m : map K V) (key : K) : Except Unit V :=
  match findNode key m.root with
  | none => .error ()
  | some e => .ok e.2.2

/-- Const `operator[]` (lines 243-247): behaves like `at`, never inserts. -/
def mapIndexC (m : map K V) (key : K) : Except Unit V :=
  match findNode key m.root with
  | none => .error ()
  | some e => .ok e.2.2

/-- Non-const `operator[]` (lines 232-238): return the mapped value when
found; otherwise insert `(key, T())` (`d` embeds the default-constructed
`T()`), and return the value the returned iterator points at
(`(*res.first).second`).  The second component is `none` only if that
dereference would dangle, which never happens. -/
def mapIndex (m : map K V) (d : V) (key : K) : map K V × Option V :=
  match findNode key m.root with
  | some e => (m, some e.2.2)
  | none =>
    match mapInsert m key d with
    | (m', it, _) =>
      match it.nodePtr with
      | some rid => (m', (getById m'.root rid).map fun p => p.2)
      | none => (m', none)

/-- `count(key)` (line 340). -/
def mapCount (m : map K V) (key : K) : Nat :=
  match findNode key m.root with
  | some _ => 1
  | none => 0

/-- `find(key)` (lines 348-350): an iterator to the node, or `end()`. -/
def mapFind (m : map K V) (key : K) : iterator :=
  ⟨(findNode key m.root).map fun e => e.1, some m.mapId⟩

end OrderedMap

/-- The copy constructor (lines 186-189): clone the source's tree into
fresh nodes, copy the count.  `mid` is the address of the new object; the
fresh map's allocation counter starts at 0 and ends past the clones. -/
def mapCopy (src : map K V) (mid : Nat) : map K V :=
  let p := cloneSubtree 0 src.root
  ⟨p.1, src.nodeCount, p.2, mid⟩

/-- `operator=` (lines 194-201): self-assignment guard (`this == &other`,
embedded as equality of the object addresses), then `clear()` — destroying
the old contents FIRST — then clone the source and adopt count. -/
def mapAssign (dst src : map K V) : map K V :=
  if dst.mapId = src.mapId then dst
  else
    let m1 := mapClear dst
    let p := cloneSubtree m1.nextId src.root
    ⟨p.1, src.nodeCount, p.2, dst.mapId⟩

/-- `cloneSubtree` instrumented with a failure budget: every `new
Node(n->value, parent)` copy-constructs a `Key` and a `T`, which may throw;
`fuel` counts how many allocations succeed before one throws (`none`).
Allocation order is the order of the source: this node, left subtree,
right subtree. -/
def cloneSubtreeF : Tree K V → Nat → Nat → Option (Tree K V × Nat × Nat)
  | .leaf, c, fuel => some (.leaf, c, fuel)
  | .node _ _ _ _ _ _, _, 0 => none
  | .node l _ k v _ r, c, fuel + 1 =>
    match cloneSubtreeF l (c + 1) fuel with
    | none => none
    | some (l', c1, f1) =>
      match cloneSubtreeF r c1 f1 with
      | none => none
      | some (r', c2, f2) => some (update (.node l' c k v 1 r'), c2, f2)

/-- `operator=` under a clone that may fail partway (see `cloneSubtreeF`).
On success, the assigned map.  On failure the exception propagates out of
`operator=` (line 198) with the receiver left exactly as the preceding
`clear()` left it: the `error` payload is that left-over state. -/
def mapAssignF (dst src : map K V) (fuel : Nat) : Except (map K V) (map K V) :=
  if dst.mapId = src.mapId then .ok dst
  else
    let m1 := mapClear dst
    match cloneSubtreeF src.root m1.nextId fuel with
    | some (t, c, _) => .ok ⟨t, src.nodeCount, c, dst.mapId⟩
    | none => .error m1

/-- Prefix `operator++` (lines 58-66): throw on a null owner or a null
node pointer; otherwise move to `owner->nextNode(nodePtr)` (null result =
end, allowed).  `mOpt` is the map object the `owner` field points to
(`none` when the owner pointer is null). -/
def iterInc (mOpt : Option (map K V)) (it : iterator) : OpRes iterator :=
  match mOpt with
  | none => .err
  | some m =>
    match it.nodePtr with
    | none => .err
    | some nid =>
      match nextNodeId m.root nid with
      | none => .ub
      | some nxt => .ok ⟨nxt, it.owner⟩

/-- Prefix `operator--` (lines 76-88): throw on a null owner; on a null
node pointer move to `maxNode(root)` (throw when the tree is empty); else
move to `prevNode(nodePtr)`, throwing when that is null. -/
def iterDec (mOpt : Option (map K V)) (it : iterator) : OpRes iterator :=
  match mOpt with
  | none => .err
  | some m =>
    match it.nodePtr with
    | none =>
      match maxId m.root with
      | none => .err
      | some j => .ok ⟨some j, it.owner⟩
    | some nid =>
      match prevNodeId m.root nid with
      | none => .ub
      | some none => .err
      | some (some pid) => .ok ⟨some pid, it.owner⟩

/-- `operator*` (lines 91-94): throw when the node pointer is null,
otherwise return `nodePtr->value`.  The owner is not consulted for the
check; it is only needed to reach the node's storage, so a non-null node
pointer with a null owner (not constructible through the public interface)
would be a wild dereference (`ub`), as would a dangling pointer. -/
def iterDeref (mOpt : Option (map K V)) (it : iterator) : OpRes (K × V) :=
  match it.nodePtr with
  | none => .err
  | some nid =>
    match mOpt with
    | none => .ub
    | some m =>
      match getById m.root nid with
      | some p => .ok p
      | none => .ub

section Traversal

variable [LinearOrder K]

/-- The visiting loop of claim C2: starting from a cursor's node pointer,
read the key under the cursor and step with `nextNode`, until the end
position.  `fuel` bounds the number of steps (the container's size in the
theorems); a dangling pointer stops the walk (never happens from
`begin()`). -/
def iterKeysFrom (m : map K V) : Option Nat → Nat → List K
  | none, _ => []
  | some _, 0 => []
  | some j, fuel + 1 =>
    match getById m.root j with
    | none => []
    | some p =>
      match nextNodeId m.root j with
      | none => []
      | some nxt => p.1 :: iterKeysFrom m nxt fuel

/-- The keys visited by iterating from `begin()` to `end()`. -/
def iterKeys (m : map K V) : List K := iterKeysFrom m (beginIt m).nodePtr m.nodeCount

end Traversal

/-! ## Specification-side predicates -/

/-- True height of a subtree: `1 + max` of the children's true heights,
absent children counting as 0. -/
def realH : Tree K V → Nat
  | .leaf => 0
  | .node l _ _ _ _ r => max (realH l) (realH r) + 1

/-- Every node's cached `height` field equals its true height. -/
def HOk : Tree K V → Prop
  | .leaf => True
  | .node l _ _ _ h r => HOk l ∧ HOk r ∧ h = max (realH l) (realH r) + 1

/-- The AVL balance condition at every node: the true heights of the two
children differ by at most 1. -/
def AvlBal : Tree K V → Prop
  | .leaf => True
  | .node l _ _ _ _ r =>
      AvlBal l ∧ AvlBal r ∧
      (realH l : Int) - realH r ≤ 1 ∧ (realH r : Int) - realH l ≤ 1

/-- `p` holds for every key in the subtree. -/
def AllKeys (p : K → Prop) : Tree K V → Prop
  | .leaf => True
  | .node l _ k _ _ r => AllKeys p l ∧ p k ∧ AllKeys p r

section OrderedProps

variable [LinearOrder K]

/-- BST ordering at every node: all keys of the left subtree are strictly
below the node's key, all keys of the right subtree strictly above. -/
def Bst : Tree K V → Prop
  | .leaf => True
  | .node l _ k _ _ r =>
      AllKeys (fun x => x < k) l ∧ AllKeys (fun x => k < x) r ∧ Bst l ∧ Bst r

/-- Insertion of `(i, k, v)` into an association list at the first position
whose key exceeds `k` — the list-level effect of a BST insertion. -/
def listInsert (i : Nat) (k : K) (v : V) : List (Nat × K × V) → List (Nat × K × V)
  | [] => [(i, k, v)]
  | e :: es => if k < e.2.1 then (i, k, v) :: e :: es else e :: listInsert i k v es

end OrderedProps

/-- In-order entries contributed by the ancestors before the focus. -/
def ctxL : List (Crumb K V) → List (Nat × K × V)
  | [] => []
  | .fromLeft _ _ _ _ _ :: c => ctxL c
  | .fromRight l i k v _ :: c => ctxL c ++ entriesT l ++ [(i, k, v)]

/-- In-order entries contributed by the ancestors after the focus. -/
def ctxR : List (Crumb K V) → List (Nat × K × V)
  | [] => []
  | .fromLeft i k v _ r :: c => (i, k, v) :: entriesT r ++ ctxR c
  | .fromRight _ _ _ _ _ :: c => ctxR c

/-- Keys contributed by the ancestors that are still ahead of an in-order
walk standing at the focus (the key of each `fromLeft` ancestor and its
right subtree). -/
def ctxKeys : List (Crumb K V) → List K
  | [] => []
  | .fromLeft _ k _ _ r :: c => k :: inorderKeys r ++ ctxKeys c
  | .fromRight _ _ _ _ _ :: c => ctxKeys c

/-- Keys not yet visited by an in-order walk whose cursor stands on the
focused node: its own key, its right subtree, then the pending ancestors. -/
def remKeys : Tree K V → List (Crumb K V) → List K
  | .leaf, _ => []
  | .node _ _ k _ _ r, c => k :: inorderKeys r ++ ctxKeys c

/-- The invariants every reachable container satisfies: BST ordering,
correct cached heights, AVL balance, unambiguous and bounded node ids, and
a node count that matches the tree. -/
structure Inv [LinearOrder K] (m : map K V) : Prop where
  bst : Bst m.root
  hok : HOk m.root
  bal : AvlBal m.root
  nodup : (inorderIds m.root).Nodup
  bound : ∀ j ∈ inorderIds m.root, j < m.nextId
  cnt : m.nodeCount = (entriesT m.root).length

/-- The containers reachable through the public interface: construction,
`insert`, a non-throwing `erase`, `clear`, copy-construction,
copy-assignment, and non-const indexed access.  An `erase` that throws
performs no mutation (`mapErase` returns no `ok` state), and an `erase`
through a dangling cursor has no defined result at all, so neither
contributes a new state. -/
inductive Reachable [LinearOrder K] : map K V → Prop where
  | new (mid : Nat) : Reachable (mapNew mid)
  | insert {m : map K V} (key : K) (v : V) :
      Reachable m → Reachable (mapInsert m key v).1
  | erase {m m' : map K V} {pos : iterator} :
      Reachable m → mapErase m pos = .ok m' → Reachable m'
  | clear {m : map K V} : Reachable m → Reachable (mapClear m)
  | copy {m : map K V} (mid : Nat) : Reachable m → Reachable (mapCopy m mid)
  | assign {m src : map K V} :
      Reachable m → Reachable src → Reachable (mapAssign m src)
  | index {m : map K V} (d : V) (key : K) :
      Reachable m → Reachable (mapIndex m d key).1

instance decHOk : ∀ t : Tree K V, Decidable (HOk t)
  | .leaf => .isTrue trivial
  | .node l _ _ _ _ r =>
    have := decHOk l
    have := decHOk r
    inferInstanceAs (Decidable (_ ∧ _ ∧ _))

instance decAvlBal : ∀ t : Tree K V, Decidable (AvlBal t)
  | .leaf => .isTrue trivial
  | .node l _ _ _ _ r =>
    have := decAvlBal l
    have := decAvlBal r
    inferInstanceAs (Decidable (_ ∧ _ ∧ _ ∧ _))

instance decAllKeys {p : K → Prop} [DecidablePred p] : ∀ t : Tree K V, Decidable (AllKeys p t)
  | .leaf => .isTrue trivial
  | .node l _ _ _ _ r =>
    have := decAllKeys (p := p) l
    have := decAllKeys (p := p) r
    inferInstanceAs (Decidable (_ ∧ _ ∧ _))

instance decBst [LinearOrder K] : ∀ t : Tree K V, Decidable (Bst t)
  | .leaf => .isTrue trivial
  | .node l _ _ _ _ r =>
    have := decBst l
    have := decBst r
    inferInstanceAs (Decidable (_ ∧ _ ∧ _ ∧ _))


/-- The crumbs pushed by the `minNode` descent are all left-child steps. -/
def AllFromLeft : List (Crumb K V) → Prop
  | [] => True
  | .fromLeft _ _ _ _ _ :: c => AllFromLeft c
  | .fromRight _ _ _ _ _ :: _ => False

/-! Concrete containers built by short runs of the public interface; used to
instantiate the universally quantified statements on closed inputs. -/

def exMapA : map Int Int := (mapInsert (mapNew 0) 7 70).1

def exMapB : map Int Int := (mapInsert (mapNew 0) 4 40).1

def exMapC : map Int Int := (mapInsert (mapInsert (mapNew 0) 1 10).1 9 90).1

def exMapD : map Int Int := (mapInsert (mapNew 0) 6 60).1

def exMapE : map Int Int := (mapInsert (mapNew 0) 3 30).1

/-! ## Basic lemmas: cached heights, entry lists of the local restructurings -/

@[simp] theorem HOk_leaf : HOk (.leaf : Tree K V) := trivial

theorem HOk_node {l r : Tree K V} {i k v h} :
    HOk (.node l i k v h r) ↔ HOk l ∧ HOk r ∧ h = max (realH l) (realH r) + 1 :=
  Iff.rfl

@[simp] theorem AvlBal_leaf : AvlBal (.leaf : Tree K V) := trivial

theorem AvlBal_node {l r : Tree K V} {i k v h} :
    AvlBal (.node l i k v h r) ↔
      AvlBal l ∧ AvlBal r ∧
      (realH l : Int) - realH r ≤ 1 ∧ (realH r : Int) - realH l ≤ 1 :=
  Iff.rfl

theorem heightOf_eq_realH {t : Tree K V} (h : HOk t) : heightOf t = realH t := by
  cases t with
  | leaf => rfl
  | node l i k v ht r => exact h.2.2

@[simp] theorem entriesT_update (t : Tree K V) : entriesT (update t) = entriesT t := by
  cases t <;> rfl

@[simp] theorem realH_update (t : Tree K V) : realH (update t) = realH t := by
  cases t <;> rfl

theorem entriesT_rotateLeft (t : Tree K V) : entriesT (rotateLeft t) = entriesT t := by
  cases t with
  | leaf => rfl
  | node l i k v h r =>
    cases r with
    | leaf => rfl
    | node rl ri rk rv rh rr => simp [rotateLeft, entriesT, List.append_assoc]

theorem entriesT_rotateRight (t : Tree K V) : entriesT (rotateRight t) = entriesT t := by
  cases t with
  | leaf => rfl
  | node l i k v h r =>
    cases l with
    | leaf => rfl
    | node ll li lk lv lh lr => simp [rotateRight, entriesT, List.append_assoc]

theorem entriesT_rebalanceAt (t : Tree K V) : entriesT (rebalanceAt t) = entriesT t := by
  cases t with
  | leaf => rfl
  | node l i k v h r =>
    simp only [rebalanceAt]
    split
    · split
      · cases r with
        | leaf => simp [rotateRight, withRight, update, entriesT, entriesT_rotateLeft]
        | node rl ri rk rv rh rr =>
          simp [rotateRight, withRight, update, entriesT, entriesT_rotateLeft,
            List.append_assoc]
          cases rl with
          | leaf => simp [entriesT]
          | node a b c d e f => simp [entriesT, List.append_assoc]
      · simp [entriesT, entriesT_rotateLeft, update]
    · split
      · split
        · cases l with
          | leaf => simp [rotateLeft, withLeft, update, entriesT, entriesT_rotateRight]
          | node ll li lk lv lh lr =>
            simp [rotateLeft, withLeft, update, entriesT, entriesT_rotateRight,
              List.append_assoc]
            cases lr with
            | leaf => simp [entriesT]
            | node a b c d e f => simp [entriesT, List.append_assoc]
        · simp [entriesT, entriesT_rotateRight, update]
      · simp [entriesT, update]

theorem update_node (l r : Tree K V) (i k v h) :
    update (.node l i k v h r) = .node l i k v (max (heightOf l) (heightOf r) + 1) r :=
  rfl

theorem balance_node (l r : Tree K V) (i k v h) :
    balance (.node l i k v h r) = (heightOf r : Int) - heightOf l :=
  rfl

theorem heightOf_node (l r : Tree K V) (i k v h) : heightOf (.node l i k v h r) = h := rfl

theorem realH_node (l r : Tree K V) (i k v h) :
    realH (.node l i k v h r) = max (realH l) (realH r) + 1 :=
  rfl

theorem withRight_node (l r x : Tree K V) (i k v h) :
    withRight (.node l i k v h r) x = .node l i k v h x :=
  rfl

theorem withLeft_node (l r x : Tree K V) (i k v h) :
    withLeft (.node l i k v h r) x = .node x i k v h r :=
  rfl

theorem rotateLeft_shape (a b c : Tree K V) (xi xk xv xh yi yk yv yh) :
    rotateLeft (.node a xi xk xv xh (.node b yi yk yv yh c)) =
      .node (.node a xi xk xv (max (heightOf a) (heightOf b) + 1) b) yi yk yv
        (max (max (heightOf a) (heightOf b) + 1) (heightOf c) + 1) c :=
  rfl

theorem rotateRight_shape (a b c : Tree K V) (xi xk xv xh yi yk yv yh) :
    rotateRight (.node (.node a xi xk xv xh b) yi yk yv yh c) =
      .node a xi xk xv (max (heightOf a) (max (heightOf b) (heightOf c) + 1) + 1)
        (.node b yi yk yv (max (heightOf b) (heightOf c) + 1) c) :=
  rfl

/-- Behaviour of `rebalanceAt` on a node whose subtrees are height-correct,
balanced AVL trees and whose own imbalance is at most 2 (the only situation
`rebalanceUp` ever presents it with): the result is height-correct and
balanced, its height is `max` or `max + 1` of the children's heights, and
when the node was not out of balance the height is exactly `max + 1`. -/
theorem rebalanceAt_spec (l r : Tree K V) (i : Nat) (k : K) (v : V) (h : Nat)
    (hl : HOk l) (hr : HOk r) (bl : AvlBal l) (br : AvlBal r)
    (d1 : (realH l : Int) - realH r ≤ 2) (d2 : (realH r : Int) - realH l ≤ 2) :
    HOk (rebalanceAt (.node l i k v h r)) ∧
    AvlBal (rebalanceAt (.node l i k v h r)) ∧
    max (realH l) (realH r) ≤ realH (rebalanceAt (.node l i k v h r)) ∧
    realH (rebalanceAt (.node l i k v h r)) ≤ max (realH l) (realH r) + 1 ∧
    ((realH l : Int) - realH r ≤ 1 → (realH r : Int) - realH l ≤ 1 →
      realH (rebalanceAt (.node l i k v h r)) = max (realH l) (realH r) + 1) := by
  have el := heightOf_eq_realH hl
  have er := heightOf_eq_realH hr
  simp only [rebalanceAt, update_node, balance_node, el, er]
  split_ifs with c1 c2 c3 c4
  · -- right-heavy, right child leans left: rotate right child right, then left
    have hr2 : realH r = realH l + 2 := by first | trivial | omega
    cases r with
    | leaf => simp [realH] at hr2
    | node rl ri2 rk2 rv2 rh2 rr =>
      obtain ⟨hrl, hrr, hch⟩ := hr
      obtain ⟨brl, brr, rb1, rb2⟩ := br
      have erl := heightOf_eq_realH hrl
      have err := heightOf_eq_realH hrr
      rw [balance_node, erl, err] at c2
      have hrlpos : 0 < realH rl := by first | trivial | omega
      cases rl with
      | leaf => simp [realH] at hrlpos
      | node a ai ak av ah b =>
        obtain ⟨ha, hb, hach⟩ := hrl
        obtain ⟨ba, bb, ab1, ab2⟩ := brl
        have ea := heightOf_eq_realH ha
        have eb := heightOf_eq_realH hb
        simp only [rotateRight_shape, withRight_node, rotateLeft_shape]
        simp only [HOk_node, AvlBal_node, heightOf_node, realH_node] at *
        exact ⟨⟨⟨hl, ha, by first | trivial | omega⟩, ⟨hb, hrr, by first | trivial | omega⟩, by first | trivial | omega⟩,
          ⟨⟨bl, ba, by first | trivial | omega, by first | trivial | omega⟩, ⟨bb, brr, by first | trivial | omega, by first | trivial | omega⟩, by first | trivial | omega, by first | trivial | omega⟩,
          by first | trivial | omega, by first | trivial | omega, by intro hx hy; first | trivial | omega⟩
  · -- right-heavy, single left rotation
    have hr2 : realH r = realH l + 2 := by first | trivial | omega
    cases r with
    | leaf => simp [realH] at hr2
    | node rl ri2 rk2 rv2 rh2 rr =>
      obtain ⟨hrl, hrr, hch⟩ := hr
      obtain ⟨brl, brr, rb1, rb2⟩ := br
      have erl := heightOf_eq_realH hrl
      have err := heightOf_eq_realH hrr
      rw [balance_node, erl, err] at c2
      simp only [rotateLeft_shape]
      simp only [HOk_node, AvlBal_node, heightOf_node, realH_node] at *
      exact ⟨⟨⟨hl, hrl, by first | trivial | omega⟩, hrr, by first | trivial | omega⟩,
        ⟨⟨bl, brl, by first | trivial | omega, by first | trivial | omega⟩, brr, by first | trivial | omega, by first | trivial | omega⟩,
        by first | trivial | omega, by first | trivial | omega, by intro hx hy; first | trivial | omega⟩
  · -- left-heavy, left child leans right: rotate left child left, then right
    have hl2 : realH l = realH r + 2 := by first | trivial | omega
    cases l with
    | leaf => simp [realH] at hl2
    | node ll li2 lk2 lv2 lh2 lr =>
      obtain ⟨hll, hlr, hch⟩ := hl
      obtain ⟨bll, blr, lb1, lb2⟩ := bl
      have ell := heightOf_eq_realH hll
      have elr := heightOf_eq_realH hlr
      rw [balance_node, ell, elr] at c4
      have hlrpos : 0 < realH lr := by first | trivial | omega
      cases lr with
      | leaf => simp [realH] at hlrpos
      | node a ai ak av ah b =>
        obtain ⟨ha, hb, hach⟩ := hlr
        obtain ⟨ba, bb, ab1, ab2⟩ := blr
        have ea := heightOf_eq_realH ha
        have eb := heightOf_eq_realH hb
        simp only [rotateLeft_shape, withLeft_node, rotateRight_shape]
        simp only [HOk_node, AvlBal_node, heightOf_node, realH_node] at *
        exact ⟨⟨⟨hll, ha, by first | trivial | omega⟩, ⟨hb, hr, by first | trivial | omega⟩, by first | trivial | omega⟩,
          ⟨⟨bll, ba, by first | trivial | omega, by first | trivial | omega⟩, ⟨bb, br, by first | trivial | omega, by first | trivial | omega⟩, by first | trivial | omega, by first | trivial | omega⟩,
          by first | trivial | omega, by first | trivial | omega, by intro hx hy; first | trivial | omega⟩
  · -- left-heavy, single right rotation
    have hl2 : realH l = realH r + 2 := by first | trivial | omega
    cases l with
    | leaf => simp [realH] at hl2
    | node ll li2 lk2 lv2 lh2 lr =>
      obtain ⟨hll, hlr, hch⟩ := hl
      obtain ⟨bll, blr, lb1, lb2⟩ := bl
      have ell := heightOf_eq_realH hll
      have elr := heightOf_eq_realH hlr
      rw [balance_node, ell, elr] at c4
      simp only [rotateRight_shape]
      simp only [HOk_node, AvlBal_node, heightOf_node, realH_node] at *
      exact ⟨⟨hll, ⟨hlr, hr, by first | trivial | omega⟩, by first | trivial | omega⟩,
        ⟨bll, ⟨blr, br, by first | trivial | omega, by first | trivial | omega⟩, by first | trivial | omega, by first | trivial | omega⟩,
        by first | trivial | omega, by first | trivial | omega, by intro hx hy; first | trivial | omega⟩
  · -- already balanced: only the height update
    simp only [HOk_node, AvlBal_node, heightOf_node, realH_node] at *
    exact ⟨⟨hl, hr, by first | trivial | omega⟩, ⟨bl, br, by first | trivial | omega, by first | trivial | omega⟩,
      by first | trivial | omega, by first | trivial | omega, by intro hx hy; first | trivial | omega⟩

/-! ## Insertion lemmas -/

theorem entriesT_node (l r : Tree K V) (i k v h) :
    entriesT (.node l i k v h r) = entriesT l ++ (i, k, v) :: entriesT r :=
  rfl

section InsertLemmas

variable [LinearOrder K]

theorem keyEq_true_iff {a b : K} : keyEq a b = true ↔ a = b := by
  simp only [keyEq, Bool.and_eq_true, Bool.not_eq_true', decide_eq_false_iff_not, not_lt]
  exact ⟨fun h => le_antisymm h.2 h.1, fun h => by rw [h]; exact ⟨le_refl b, le_refl b⟩⟩

theorem keyEq_false_iff {a b : K} : keyEq a b = false ↔ a ≠ b := by
  rw [Bool.eq_false_iff]
  exact not_congr keyEq_true_iff

/-- When the descent finds a key-equivalent node, `insert` returns that
node's id, the flag `false`, and the untouched tree. -/
theorem insertAux_dup {key : K} {v : V} {nid : Nat} :
    ∀ {t : Tree K V} {e}, findNode key t = some e →
      insertAux key v nid t = (t, e.1, false)
  | .leaf, e, hf => by simp [findNode] at hf
  | .node l i k v0 h r, e, hf => by
    by_cases hk : keyEq key k
    · simp only [findNode, hk, if_true, Option.some.injEq] at hf
      simp [insertAux, hk, ← hf]
    · by_cases hlt : key < k
      · simp only [findNode, hk, if_false, hlt, if_true] at hf
        simp [insertAux, hk, hlt, insertAux_dup hf]
      · simp only [findNode, hk, if_false, hlt, if_false] at hf
        simp [insertAux, hk, hlt, insertAux_dup hf]

/-- When the key is absent, `insert` reports `true` and hands back the id
of the freshly allocated node. -/
theorem insertAux_new {key : K} {v : V} {nid : Nat} :
    ∀ {t : Tree K V}, findNode key t = none →
      (insertAux key v nid t).2.2 = true ∧ (insertAux key v nid t).2.1 = nid
  | .leaf, _ => by simp [insertAux]
  | .node l i k v0 h r, hf => by
    by_cases hk : keyEq key k
    · simp [findNode, hk] at hf
    · by_cases hlt : key < k
      · simp only [findNode, hk, if_false, hlt, if_true] at hf
        have ih : (insertAux key v nid l).2.2 = true ∧ (insertAux key v nid l).2.1 = nid :=
          insertAux_new hf
        simp only [insertAux, hk, if_false, hlt, if_true]
        obtain ⟨h1, h2⟩ := ih
        cases hins : insertAux key v nid l with
        | mk t' p =>
          cases p with
          | mk rid fl =>
            rw [hins] at h1 h2
            simp at h1 h2
            subst h1; subst h2
            simp
      · simp only [findNode, hk, if_false, hlt, if_false] at hf
        have ih : (insertAux key v nid r).2.2 = true ∧ (insertAux key v nid r).2.1 = nid :=
          insertAux_new hf
        simp only [insertAux, hk, if_false, hlt, if_false]
        obtain ⟨h1, h2⟩ := ih
        cases hins : insertAux key v nid r with
        | mk t' p =>
          cases p with
          | mk rid fl =>
            rw [hins] at h1 h2
            simp at h1 h2
            subst h1; subst h2
            simp

/-- Whatever the flag, insertion keeps the tree height-correct and
AVL-balanced, and grows the height by at most one. -/
theorem insertAux_inv {key : K} {v : V} {nid : Nat} :
    ∀ {t t' : Tree K V} {rid : Nat} {fl : Bool}, HOk t → AvlBal t →
      insertAux key v nid t = (t', rid, fl) →
      HOk t' ∧ AvlBal t' ∧ realH t ≤ realH t' ∧ realH t' ≤ realH t + 1
  | .leaf, t', rid, fl, _, _, heq => by
    simp only [insertAux, Prod.mk.injEq] at heq
    obtain ⟨rfl, -, -⟩ := heq
    refine ⟨?_, ?_, ?_, ?_⟩ <;> simp [HOk, AvlBal, realH]
  | .node l i k v0 h r, t', rid, fl, hok, hbal, heq => by
    obtain ⟨hl, hr, hch⟩ := hok
    obtain ⟨bl, br, db1, db2⟩ := hbal
    by_cases hk : keyEq key k
    · simp only [insertAux, hk, if_true, Prod.mk.injEq] at heq
      obtain ⟨rfl, -, -⟩ := heq
      exact ⟨⟨hl, hr, hch⟩, ⟨bl, br, db1, db2⟩, le_refl _, Nat.le_succ _⟩
    · by_cases hlt : key < k
      · simp only [insertAux, hk, if_false, hlt, if_true] at heq
        cases hins : insertAux key v nid l with
        | mk l' p =>
          cases p with
          | mk rid0 fl0 =>
            rw [hins] at heq
            have ih := insertAux_inv hl bl hins
            obtain ⟨ihok, ihbal, ihlo, ihhi⟩ := ih
            cases fl0 with
            | false =>
              simp only [Prod.mk.injEq] at heq
              obtain ⟨rfl, -, -⟩ := heq
              exact ⟨⟨hl, hr, hch⟩, ⟨bl, br, db1, db2⟩, le_refl _, Nat.le_succ _⟩
            | true =>
              simp only [Prod.mk.injEq] at heq
              obtain ⟨rfl, -, -⟩ := heq
              obtain ⟨s1, s2, s3, s4, s5⟩ :=
                rebalanceAt_spec l' r i k v0 h ihok hr ihbal br (by omega) (by omega)
              refine ⟨s1, s2, ?_, ?_⟩ <;>
              · simp only [realH_node] at *
                by_cases hA : (realH l' : Int) - realH r ≤ 1
                · by_cases hB : (realH r : Int) - realH l' ≤ 1
                  · have := s5 hA hB
                    omega
                  · omega
                · omega
      · simp only [insertAux, hk, if_false, hlt, if_false] at heq
        cases hins : insertAux key v nid r with
        | mk r' p =>
          cases p with
          | mk rid0 fl0 =>
            rw [hins] at heq
            have ih := insertAux_inv hr br hins
            obtain ⟨ihok, ihbal, ihlo, ihhi⟩ := ih
            cases fl0 with
            | false =>
              simp only [Prod.mk.injEq] at heq
              obtain ⟨rfl, -, -⟩ := heq
              exact ⟨⟨hl, hr, hch⟩, ⟨bl, br, db1, db2⟩, le_refl _, Nat.le_succ _⟩
            | true =>
              simp only [Prod.mk.injEq] at heq
              obtain ⟨rfl, -, -⟩ := heq
              obtain ⟨s1, s2, s3, s4, s5⟩ :=
                rebalanceAt_spec l r' i k v0 h hl ihok bl ihbal (by omega) (by omega)
              refine ⟨s1, s2, ?_, ?_⟩ <;>
              · simp only [realH_node] at *
                by_cases hA : (realH l : Int) - realH r' ≤ 1
                · by_cases hB : (realH r' : Int) - realH l ≤ 1
                  · have := s5 hA hB
                    omega
                  · omega
                · omega

end InsertLemmas

/-! ## Ordering: `Bst`, pairwise entry lists, `findNode`, entries of `insert` -/

theorem allKeys_iff {p : K → Prop} :
    ∀ {t : Tree K V}, AllKeys p t ↔ ∀ e ∈ entriesT t, p e.2.1
  | .leaf => by simp [AllKeys, entriesT]
  | .node l i k v h r => by
    rw [AllKeys, entriesT_node]
    rw [allKeys_iff (t := l), allKeys_iff (t := r)]
    constructor
    · rintro ⟨h1, h2, h3⟩ e he
      rcases List.mem_append.mp he with hel | her
      · exact h1 e hel
      · rcases List.mem_cons.mp her with rfl | her
        · exact h2
        · exact h3 e her
    · intro hall
      exact ⟨fun e he => hall e (List.mem_append.mpr (Or.inl he)),
        hall (i, k, v) (List.mem_append.mpr (Or.inr (List.mem_cons_self _ _))),
        fun e he => hall e (List.mem_append.mpr (Or.inr (List.mem_cons_of_mem _ he)))⟩

section BstLemmas

variable [LinearOrder K]

/-- The entry-list rendering of the per-node BST invariant: the in-order
entry list is strictly increasing in its keys. -/
theorem bst_iff_pairwise :
    ∀ {t : Tree K V}, Bst t ↔ List.Pairwise (fun a b => a.2.1 < b.2.1) (entriesT t)
  | .leaf => by simp [Bst, entriesT]
  | .node l i k v h r => by
    rw [Bst, entriesT_node, List.pairwise_append]
    rw [bst_iff_pairwise (t := l), bst_iff_pairwise (t := r)]
    rw [allKeys_iff, allKeys_iff, List.pairwise_cons]
    constructor
    · rintro ⟨h1, h2, h3, h4⟩
      refine ⟨h3, ⟨fun b hb => h2 b hb, h4⟩, ?_⟩
      intro a ha b hb
      rcases List.mem_cons.mp hb with rfl | hb
      · exact h1 a ha
      · exact lt_trans (h1 a ha) (h2 b hb)
    · rintro ⟨h3, ⟨h2, h4⟩, hcross⟩
      exact ⟨fun e he => hcross e he (i, k, v) (List.mem_cons_self _ _), h2, h3, h4⟩

theorem mem_listInsert {i : Nat} {k : K} {v : V} {b} :
    ∀ {l : List (Nat × K × V)}, b ∈ listInsert i k v l ↔ b = (i, k, v) ∨ b ∈ l
  | [] => by simp [listInsert]
  | e :: es => by
    rw [listInsert]
    split
    · simp
    · rw [List.mem_cons, mem_listInsert (l := es), List.mem_cons]
      tauto

theorem listInsert_perm {i : Nat} {k : K} {v : V} :
    ∀ {l : List (Nat × K × V)}, List.Perm (listInsert i k v l) ((i, k, v) :: l)
  | [] => by simp [listInsert]
  | e :: es => by
    rw [listInsert]
    split
    · exact List.Perm.refl _
    · exact ((listInsert_perm (l := es)).cons e).trans (List.Perm.swap _ _ _)

theorem length_listInsert {i : Nat} {k : K} {v : V} {l : List (Nat × K × V)} :
    (listInsert i k v l).length = l.length + 1 := by
  simpa using listInsert_perm.length_eq

theorem pairwise_listInsert {i : Nat} {k : K} {v : V} :
    ∀ {l : List (Nat × K × V)},
      List.Pairwise (fun a b => a.2.1 < b.2.1) l → (∀ e ∈ l, e.2.1 ≠ k) →
      List.Pairwise (fun a b => a.2.1 < b.2.1) (listInsert i k v l)
  | [], _, _ => by simp [listInsert]
  | e :: es, hp, hk => by
    rw [List.pairwise_cons] at hp
    obtain ⟨he, hp'⟩ := hp
    rw [listInsert]
    split
    · rename_i hlt
      rw [List.pairwise_cons]
      refine ⟨?_, List.pairwise_cons.mpr ⟨he, hp'⟩⟩
      intro b hb
      rcases List.mem_cons.mp hb with rfl | hb
      · exact hlt
      · exact lt_trans hlt (he b hb)
    · rename_i hnlt
      have hek : e.2.1 < k :=
        lt_of_le_of_ne (not_lt.mp hnlt) (hk e (List.mem_cons_self _ _))
      rw [List.pairwise_cons]
      refine ⟨?_, pairwise_listInsert hp' fun b hb => hk b (List.mem_cons_of_mem _ hb)⟩
      intro b hb
      rcases mem_listInsert.mp hb with rfl | hb
      · exact hek
      · exact he b hb

theorem findNode_mem {key : K} :
    ∀ {t : Tree K V} {e}, findNode key t = some e → e ∈ entriesT t ∧ e.2.1 = key
  | .leaf, e, hf => by simp [findNode] at hf
  | .node l i k v h r, e, hf => by
    rw [findNode] at hf
    split at hf
    · rename_i hk
      obtain rfl := Option.some.inj hf
      exact ⟨by simp [entriesT_node], (keyEq_true_iff.mp hk).symm⟩
    · split at hf
      · obtain ⟨hm, hk⟩ := findNode_mem hf
        exact ⟨by simp [entriesT_node, hm], hk⟩
      · obtain ⟨hm, hk⟩ := findNode_mem hf
        exact ⟨by simp [entriesT_node, hm], hk⟩

/-- Under the BST invariant the descent is complete: it fails exactly when
no stored entry has the key. -/
theorem findNode_none {key : K} :
    ∀ {t : Tree K V}, Bst t → (findNode key t = none ↔ ∀ e ∈ entriesT t, e.2.1 ≠ key)
  | .leaf, _ => by simp [findNode, entriesT]
  | .node l i k v h r, hb => by
    obtain ⟨akl, akr, bstl, bstr⟩ := hb
    rw [findNode]
    split
    · rename_i hk
      obtain rfl := keyEq_true_iff.mp hk
      simp only [entriesT_node]
      constructor
      · intro hcontra
        exact absurd hcontra (by simp)
      · intro hall
        exact absurd rfl (hall (i, key, v) (by simp))
    · rename_i hk
      have hne : key ≠ k := fun hcontra => hk (keyEq_true_iff.mpr hcontra)
      split
      · rename_i hlt
        rw [findNode_none bstl]
        simp only [entriesT_node]
        constructor
        · intro hall e he
          rcases List.mem_append.mp he with hel | her
          · exact hall e hel
          · rcases List.mem_cons.mp her with rfl | her
            · exact fun hcontra => hne hcontra.symm
            · have := allKeys_iff.mp akr e her
              exact fun hcontra => absurd (hcontra ▸ this) (not_lt.mpr (le_of_lt hlt))
        · intro hall e he
          exact hall e (by simp [he])
      · rename_i hlt
        have hgt : k < key := lt_of_le_of_ne (not_lt.mp hlt) hne.symm
        rw [findNode_none bstr]
        simp only [entriesT_node]
        constructor
        · intro hall e he
          rcases List.mem_append.mp he with hel | her
          · have := allKeys_iff.mp akl e hel
            exact fun hcontra => absurd (hcontra ▸ this) (not_lt.mpr (le_of_lt hgt))
          · rcases List.mem_cons.mp her with rfl | her
            · exact fun hcontra => hne hcontra.symm
            · exact hall e her
        · intro hall e he
          exact hall e (by simp [he])

theorem listInsert_append_right {i : Nat} {k : K} {v : V} {ys : List (Nat × K × V)} :
    ∀ {xs : List (Nat × K × V)}, (∀ e ∈ xs, e.2.1 < k) →
      listInsert i k v (xs ++ ys) = xs ++ listInsert i k v ys
  | [], _ => rfl
  | e :: es, hall => by
    have hne : ¬ k < e.2.1 :=
      not_lt.mpr (le_of_lt (hall e (List.mem_cons_self _ _)))
    simp only [List.cons_append, listInsert, hne, if_false, List.append_eq]
    rw [listInsert_append_right fun b hb => hall b (List.mem_cons_of_mem _ hb)]

theorem listInsert_append_left {i : Nat} {k : K} {v : V} {p : Nat × K × V}
    {ys : List (Nat × K × V)} (hk : k < p.2.1) :
    ∀ {xs : List (Nat × K × V)},
      listInsert i k v (xs ++ p :: ys) = listInsert i k v xs ++ p :: ys
  | [] => by simp [listInsert, hk]
  | e :: es => by
    by_cases he : k < e.2.1
    · simp [listInsert, he]
    · simp only [List.cons_append, listInsert, he, if_false, List.append_eq]
      rw [listInsert_append_left hk]

/-- List-level effect of a successful insertion: the new entry lands at its
sorted position. -/
theorem insertAux_entries {key : K} {v : V} {nid : Nat} :
    ∀ {t t' : Tree K V} {rid : Nat}, Bst t →
      insertAux key v nid t = (t', rid, true) →
      entriesT t' = listInsert nid key v (entriesT t)
  | .leaf, t', rid, _, heq => by
    simp only [insertAux, Prod.mk.injEq] at heq
    obtain ⟨rfl, -, -⟩ := heq
    rfl
  | .node l i k v0 h r, t', rid, hb, heq => by
    obtain ⟨akl, akr, bstl, bstr⟩ := hb
    by_cases hk : keyEq key k
    · simp [insertAux, hk] at heq
    · by_cases hlt : key < k
      · simp only [insertAux, hk, if_false, hlt, if_true] at heq
        cases hins : insertAux key v nid l with
        | mk l' p =>
          cases p with
          | mk rid0 fl0 =>
            rw [hins] at heq
            cases fl0 with
            | false => simp at heq
            | true =>
              simp only [Prod.mk.injEq] at heq
              obtain ⟨rfl, -, -⟩ := heq
              rw [entriesT_rebalanceAt, entriesT_node, insertAux_entries bstl hins,
                entriesT_node, listInsert_append_left hlt]
      · have hgt : k < key :=
          lt_of_le_of_ne (not_lt.mp hlt) fun hcontra =>
            hk (keyEq_true_iff.mpr hcontra.symm)
        simp only [insertAux, hk, if_false, hlt, if_false] at heq
        cases hins : insertAux key v nid r with
        | mk r' p =>
          cases p with
          | mk rid0 fl0 =>
            rw [hins] at heq
            cases fl0 with
            | false => simp at heq
            | true =>
              simp only [Prod.mk.injEq] at heq
              obtain ⟨rfl, -, -⟩ := heq
              rw [entriesT_rebalanceAt, entriesT_node, insertAux_entries bstr hins,
                entriesT_node]
              rw [show entriesT l ++ (i, k, v0) :: entriesT r =
                    (entriesT l ++ [(i, k, v0)]) ++ entriesT r by simp]
              rw [listInsert_append_right]
              · simp
              · intro e he
                rcases List.mem_append.mp he with hel | hep
                · exact lt_trans (allKeys_iff.mp akl e hel) hgt
                · rcases List.mem_singleton.mp hep with rfl
                  exact hgt

end BstLemmas

/-! ## Erase lemmas: context decomposition and the upward rebalance walk -/

theorem entriesT_plug :
    ∀ (c : List (Crumb K V)) (f : Tree K V),
      entriesT (plug f c) = ctxL c ++ entriesT f ++ ctxR c
  | [], f => by simp [plug, ctxL, ctxR]
  | .fromLeft i k v h r :: c, f => by
    rw [plug, entriesT_plug c, entriesT_node, ctxL, ctxR]
    simp [List.append_assoc]
  | .fromRight l i k v h :: c, f => by
    rw [plug, entriesT_plug c, entriesT_node, ctxL, ctxR]
    simp [List.append_assoc]

theorem HOk_of_plug : ∀ {c : List (Crumb K V)} {f : Tree K V}, HOk (plug f c) → HOk f
  | [], _, h => h
  | .fromLeft i k v h r :: c, f, hok => (HOk_of_plug (c := c) hok).1
  | .fromRight l i k v h :: c, f, hok => (HOk_of_plug (c := c) hok).2.1

theorem AvlBal_of_plug :
    ∀ {c : List (Crumb K V)} {f : Tree K V}, AvlBal (plug f c) → AvlBal f
  | [], _, h => h
  | .fromLeft i k v h r :: c, f, hb => (AvlBal_of_plug (c := c) hb).1
  | .fromRight l i k v h :: c, f, hb => (AvlBal_of_plug (c := c) hb).2.1

/-- On a node that is already height-correct and balanced, `rebalanceAt` is
the identity: the `update` recomputes the height it already has and no
rotation fires.  This is why the source's second `rebalanceUp(parent)` call
in the two-children case of `eraseNode` (line 587) changes nothing: it
walks a chain the first call has already made height-correct and balanced. -/
theorem rebalanceAt_eq_of_ok {t : Tree K V} (hok : HOk t) (hbal : AvlBal t) :
    rebalanceAt t = t := by
  cases t with
  | leaf => rfl
  | node l i k v h r =>
    obtain ⟨hl, hr, hch⟩ := hok
    obtain ⟨bl, br, d1, d2⟩ := hbal
    have el := heightOf_eq_realH hl
    have er := heightOf_eq_realH hr
    simp only [rebalanceAt, update_node, balance_node, el, er]
    rw [if_neg (by omega), if_neg (by omega), hch]

/-- `eraseMin` removes exactly the first in-order entry, keeps the
height/balance invariants, and lowers the height by at most one. -/
theorem eraseMin_spec :
    ∀ {t t' : Tree K V} {si : Nat} {sk : K} {sv : V} {sh : Nat},
      HOk t → AvlBal t → eraseMin t = some ((si, sk, sv, sh), t') →
      entriesT t = (si, sk, sv) :: entriesT t' ∧ HOk t' ∧ AvlBal t' ∧
      (realH t : Int) - 1 ≤ realH t' ∧ (realH t' : Int) ≤ realH t
  | .leaf, t', si, sk, sv, sh, _, _, heq => by simp [eraseMin] at heq
  | .node .leaf i k v h r, t', si, sk, sv, sh, hok, hbal, heq => by
    obtain ⟨-, hr, hch⟩ := hok
    obtain ⟨-, br, d1, d2⟩ := hbal
    simp only [eraseMin, Option.some.injEq, Prod.mk.injEq] at heq
    obtain ⟨⟨rfl, rfl, rfl, rfl⟩, rfl⟩ := heq
    refine ⟨rfl, hr, br, ?_, ?_⟩ <;> simp only [realH_node, realH] at * <;> omega
  | .node (.node a j b d e f) i k v h r, t', si, sk, sv, sh, hok, hbal, heq => by
    obtain ⟨hl, hr, hch⟩ := hok
    obtain ⟨bl, br, d1, d2⟩ := hbal
    rw [eraseMin] at heq
    cases hmin : eraseMin (.node a j b d e f) with
    | none => rw [hmin] at heq; exact absurd heq (by simp)
    | some p =>
      rw [hmin] at heq
      cases p with
      | mk m l' =>
        cases m with
        | mk mi mp =>
          cases mp with
          | mk mk2 mp2 =>
            cases mp2 with
            | mk mv mh =>
              simp only [Option.some.injEq, Prod.mk.injEq] at heq
              obtain ⟨⟨rfl, rfl, rfl, rfl⟩, rfl⟩ := heq
              obtain ⟨ihe, ihok, ihbal, ihlo, ihhi⟩ := eraseMin_spec hl bl hmin
              obtain ⟨s1, s2, s3, s4, s5⟩ :=
                rebalanceAt_spec l' r i k v h ihok hr ihbal br (by omega) (by omega)
              refine ⟨?_, s1, s2, ?_, ?_⟩
              · simp only [entriesT_rebalanceAt, entriesT_node, ihe, List.cons_append]
              · simp only [realH_node] at *
                by_cases hA : (realH l' : Int) - realH r ≤ 1
                · by_cases hB : (realH r : Int) - realH l' ≤ 1
                  · have := s5 hA hB
                    omega
                  · omega
                · omega
              · simp only [realH_node] at *
                by_cases hA : (realH l' : Int) - realH r ≤ 1
                · by_cases hB : (realH r : Int) - realH l' ≤ 1
                  · have := s5 hA hB
                    omega
                  · omega
                · omega

theorem eraseMin_isSome (a : Tree K V) (j b d e f) :
    (eraseMin (.node a j b d e f)).isSome = true := by
  induction a generalizing j b d e f with
  | leaf => simp [eraseMin]
  | node a2 j2 b2 d2 e2 f2 iha ihb =>
    rw [eraseMin]
    cases hmin : eraseMin (.node a2 j2 b2 d2 e2 f2) with
    | none =>
      have h2 := iha j2 b2 d2 e2 f2
      rw [hmin] at h2
      simp at h2
    | some p => simp

/-- The `rebalanceUp` walk from a replacement subtree `g` standing where
`f` stood: if the whole tree was height-correct and balanced and `g` is a
height-correct balanced subtree whose height differs from `f`'s by at most
one, the walk restores both invariants for the whole tree and the entry
list is the context around `g`'s entries. -/
theorem plugRebalance_spec :
    ∀ {c : List (Crumb K V)} {f g : Tree K V},
      HOk (plug f c) → AvlBal (plug f c) → HOk g → AvlBal g →
      (realH f : Int) - 1 ≤ realH g → (realH g : Int) ≤ realH f + 1 →
      HOk (plugRebalance g c) ∧ AvlBal (plugRebalance g c) ∧
      entriesT (plugRebalance g c) = ctxL c ++ entriesT g ++ ctxR c
  | [], f, g, _, _, hg, bg, _, _ => ⟨hg, bg, by simp [plugRebalance, ctxL, ctxR]⟩
  | .fromLeft i k v h r :: c, f, g, hok, hbal, hg, bg, hlo, hhi => by
    have hokF : HOk (.node f i k v h r) := HOk_of_plug (c := c) hok
    have hbalF : AvlBal (.node f i k v h r) := AvlBal_of_plug (c := c) hbal
    obtain ⟨hf, hr, hch⟩ := hokF
    obtain ⟨bf, br, df1, df2⟩ := hbalF
    obtain ⟨s1, s2, s3, s4, s5⟩ :=
      rebalanceAt_spec g r i k v h hg hr bg br (by omega) (by omega)
    have hstep1 : (realH (Tree.node f i k v h r) : Int) - 1 ≤
        realH (rebalanceAt (.node g i k v h r)) := by
      simp only [realH_node] at *
      by_cases hA : (realH g : Int) - realH r ≤ 1
      · by_cases hB : (realH r : Int) - realH g ≤ 1
        · have := s5 hA hB
          omega
        · omega
      · omega
    have hstep2 : (realH (rebalanceAt (.node g i k v h r)) : Int) ≤
        realH (Tree.node f i k v h r) + 1 := by
      simp only [realH_node] at *
      omega
    obtain ⟨ih1, ih2, ih3⟩ :=
      plugRebalance_spec (c := c) (f := .node f i k v h r)
        (g := rebalanceAt (.node g i k v h r)) hok hbal s1 s2 hstep1 hstep2
    refine ⟨ih1, ih2, ?_⟩
    rw [show plugRebalance g (.fromLeft i k v h r :: c) =
        plugRebalance (rebalanceAt (.node g i k v h r)) c from rfl]
    rw [ih3, entriesT_rebalanceAt, entriesT_node, ctxL, ctxR]
    simp [List.append_assoc]
  | .fromRight l i k v h :: c, f, g, hok, hbal, hg, bg, hlo, hhi => by
    have hokF : HOk (.node l i k v h f) := HOk_of_plug (c := c) hok
    have hbalF : AvlBal (.node l i k v h f) := AvlBal_of_plug (c := c) hbal
    obtain ⟨hl, hf, hch⟩ := hokF
    obtain ⟨bl, bf, df1, df2⟩ := hbalF
    obtain ⟨s1, s2, s3, s4, s5⟩ :=
      rebalanceAt_spec l g i k v h hl hg bl bg (by omega) (by omega)
    have hstep1 : (realH (Tree.node l i k v h f) : Int) - 1 ≤
        realH (rebalanceAt (.node l i k v h g)) := by
      simp only [realH_node] at *
      by_cases hA : (realH l : Int) - realH g ≤ 1
      · by_cases hB : (realH g : Int) - realH l ≤ 1
        · have := s5 hA hB
          omega
        · omega
      · omega
    have hstep2 : (realH (rebalanceAt (.node l i k v h g)) : Int) ≤
        realH (Tree.node l i k v h f) + 1 := by
      simp only [realH_node] at *
      omega
    obtain ⟨ih1, ih2, ih3⟩ :=
      plugRebalance_spec (c := c) (f := .node l i k v h f)
        (g := rebalanceAt (.node l i k v h g)) hok hbal s1 s2 hstep1 hstep2
    refine ⟨ih1, ih2, ?_⟩
    rw [show plugRebalance g (.fromRight l i k v h :: c) =
        plugRebalance (rebalanceAt (.node l i k v h g)) c from rfl]
    rw [ih3, entriesT_rebalanceAt, entriesT_node, ctxL, ctxR]
    simp [List.append_assoc]

/-- `eraseNode` at a located position: the invariants survive and exactly
the focused entry disappears from the in-order entry list. -/
theorem eraseAtZ_spec {fl fr : Tree K V} {fi : Nat} {fk : K} {fv : V} {fh : Nat}
    {c : List (Crumb K V)}
    (hok : HOk (plug (.node fl fi fk fv fh fr) c))
    (hbal : AvlBal (plug (.node fl fi fk fv fh fr) c)) :
    HOk (eraseAtZ (.node fl fi fk fv fh fr) c) ∧
    AvlBal (eraseAtZ (.node fl fi fk fv fh fr) c) ∧
    entriesT (eraseAtZ (.node fl fi fk fv fh fr) c) =
      ctxL c ++ (entriesT fl ++ entriesT fr) ++ ctxR c := by
  have hokF : HOk (.node fl fi fk fv fh fr) := HOk_of_plug (c := c) hok
  have hbalF : AvlBal (.node fl fi fk fv fh fr) := AvlBal_of_plug (c := c) hbal
  obtain ⟨hfl, hfr, hch⟩ := hokF
  obtain ⟨bfl, bfr, df1, df2⟩ := hbalF
  cases fl with
  | leaf =>
    rw [show eraseAtZ (.node .leaf fi fk fv fh fr) c = plugRebalance fr c from rfl]
    obtain ⟨p1, p2, p3⟩ :=
      plugRebalance_spec (c := c) (f := .node .leaf fi fk fv fh fr) (g := fr)
        hok hbal hfr bfr (by simp only [realH_node, realH]; omega)
        (by simp only [realH_node, realH]; omega)
    exact ⟨p1, p2, by rw [p3]; simp [entriesT]⟩
  | node a j b d e f =>
    cases fr with
    | leaf =>
      rw [show eraseAtZ (.node (.node a j b d e f) fi fk fv fh .leaf) c =
          plugRebalance (.node a j b d e f) c from rfl]
      obtain ⟨p1, p2, p3⟩ :=
        plugRebalance_spec (c := c)
          (f := .node (.node a j b d e f) fi fk fv fh .leaf)
          (g := .node a j b d e f) hok hbal hfl bfl
          (by simp only [realH_node]; simp only [realH]; omega)
          (by simp only [realH_node]; simp only [realH]; omega)
      exact ⟨p1, p2, by rw [p3]; simp [entriesT]⟩
    | node a2 j2 b2 d2 e2 f2 =>
      cases hmin : eraseMin (.node a2 j2 b2 d2 e2 f2) with
      | none =>
        have := eraseMin_isSome a2 j2 b2 d2 e2 f2
        rw [hmin] at this
        simp at this
      | some p =>
        cases p with
        | mk m r' =>
          cases m with
          | mk si mp =>
            cases mp with
            | mk sk mp2 =>
              cases mp2 with
              | mk sv sh =>
                obtain ⟨ime, imok, imbal, imlo, imhi⟩ := eraseMin_spec hfr bfr hmin
                rw [show eraseAtZ
                    (.node (.node a j b d e f) fi fk fv fh (.node a2 j2 b2 d2 e2 f2)) c =
                    plugRebalance
                      (rebalanceAt (.node (.node a j b d e f) si sk sv sh r')) c by
                  rw [eraseAtZ, hmin]]
                obtain ⟨s1, s2, s3, s4, s5⟩ :=
                  rebalanceAt_spec (.node a j b d e f) r' si sk sv sh hfl imok bfl imbal
                    (by omega) (by omega)
                obtain ⟨p1, p2, p3⟩ :=
                  plugRebalance_spec (c := c)
                    (f := .node (.node a j b d e f) fi fk fv fh (.node a2 j2 b2 d2 e2 f2))
                    (g := rebalanceAt (.node (.node a j b d e f) si sk sv sh r'))
                    hok hbal s1 s2
                    (by
                      simp only [realH_node] at *
                      by_cases hA : (realH (Tree.node a j b d e f) : Int) - realH r' ≤ 1
                      · by_cases hB : (realH r' : Int) - realH (Tree.node a j b d e f) ≤ 1
                        · have := s5 hA hB
                          omega
                        · omega
                      · omega)
                    (by simp only [realH_node] at *; omega)
                refine ⟨p1, p2, ?_⟩
                simp only [p3, entriesT_rebalanceAt, entriesT_node, ime,
                  List.append_assoc, List.cons_append]

/-! ## Pointer recovery: `findZipper` is sound, complete and unambiguous -/

theorem inorderIds_node (l r : Tree K V) (i k v h) :
    inorderIds (.node l i k v h r) = inorderIds l ++ i :: inorderIds r := by
  simp [inorderIds, entriesT_node]

theorem inorderKeys_node (l r : Tree K V) (i k v h) :
    inorderKeys (.node l i k v h r) = inorderKeys l ++ k :: inorderKeys r := by
  simp [inorderKeys, entriesT_node]

theorem plug_append :
    ∀ (c1 c2 : List (Crumb K V)) (f : Tree K V),
      plug f (c1 ++ c2) = plug (plug f c1) c2
  | [], c2, f => rfl
  | .fromLeft i k v h r :: c1, c2, f => by
    rw [List.cons_append, plug, plug, plug_append]
  | .fromRight l i k v h :: c1, c2, f => by
    rw [List.cons_append, plug, plug, plug_append]

theorem plug_eq_leaf :
    ∀ {c : List (Crumb K V)} {f : Tree K V}, plug f c = .leaf → f = .leaf ∧ c = []
  | [], f, h => ⟨h, rfl⟩
  | .fromLeft i k v h r :: c, f, heq => by
    obtain ⟨h1, -⟩ := plug_eq_leaf (c := c) heq
    exact absurd h1 (by simp)
  | .fromRight l i k v h :: c, f, heq => by
    obtain ⟨h1, -⟩ := plug_eq_leaf (c := c) heq
    exact absurd h1 (by simp)

theorem ids_subset_plug :
    ∀ {c : List (Crumb K V)} {f : Tree K V} {j : Nat},
      j ∈ inorderIds f → j ∈ inorderIds (plug f c)
  | [], _, _, hj => hj
  | .fromLeft i k v h r :: c, f, j, hj =>
    ids_subset_plug (c := c) (by rw [inorderIds_node]; exact List.mem_append_left _ hj)
  | .fromRight l i k v h :: c, f, j, hj =>
    ids_subset_plug (c := c)
      (by
        rw [inorderIds_node]
        exact List.mem_append_right _ (List.mem_cons_of_mem _ hj))

theorem focusId_mem {f : Tree K V} (hne : f ≠ .leaf) : focusId f ∈ inorderIds f := by
  cases f with
  | leaf => exact absurd rfl hne
  | node l i k v h r => simp [focusId, inorderIds_node]

theorem findZipper_sound {j : Nat} :
    ∀ {t : Tree K V} {ctx f c}, findZipper j t ctx = some (f, c) →
      plug f c = plug t ctx ∧ focusId f = j ∧ f ≠ .leaf
  | .leaf, ctx, f, c, heq => by simp [findZipper] at heq
  | .node l i k v h r, ctx, f, c, heq => by
    rw [findZipper] at heq
    split at heq
    · rename_i hij
      obtain ⟨rfl, rfl⟩ := Prod.mk.injEq .. ▸ (Option.some.inj heq)
      exact ⟨rfl, hij, by simp⟩
    · rename_i hij
      cases hfl : findZipper j l (.fromLeft i k v h r :: ctx) with
      | some z =>
        rw [hfl] at heq
        obtain rfl := Option.some.inj heq
        obtain ⟨h1, h2, h3⟩ := findZipper_sound hfl
        exact ⟨h1, h2, h3⟩
      | none =>
        rw [hfl] at heq
        obtain ⟨h1, h2, h3⟩ := findZipper_sound heq
        exact ⟨h1, h2, h3⟩

theorem findZipper_complete {j : Nat} :
    ∀ {t : Tree K V} {ctx}, j ∈ inorderIds t → (findZipper j t ctx).isSome = true
  | .leaf, ctx, hj => by simp [inorderIds, entriesT] at hj
  | .node l i k v h r, ctx, hj => by
    rw [findZipper]
    split
    · simp
    · rename_i hij
      rw [inorderIds_node] at hj
      cases hfl : findZipper j l (.fromLeft i k v h r :: ctx) with
      | some z => simp
      | none =>
        rcases List.mem_append.mp hj with hjl | hjr
        · have : (findZipper j l (.fromLeft i k v h r :: ctx)).isSome = true :=
            findZipper_complete hjl
          rw [hfl] at this
          simp at this
        · rcases List.mem_cons.mp hjr with rfl | hjr
          · exact absurd rfl hij
          · exact findZipper_complete hjr

theorem nodup_ids_node {l r : Tree K V} {i k v h}
    (hnd : (inorderIds (.node l i k v h r)).Nodup) :
    (inorderIds l).Nodup ∧ (inorderIds r).Nodup ∧ i ∉ inorderIds l ∧ i ∉ inorderIds r ∧
      ∀ j, j ∈ inorderIds l → j ∈ inorderIds r → False := by
  rw [inorderIds_node, List.nodup_append] at hnd
  obtain ⟨h1, h2, h3⟩ := hnd
  rw [List.nodup_cons] at h2
  refine ⟨h1, h2.2, fun hmem => h3 hmem (List.mem_cons_self _ _), h2.1, ?_⟩
  exact fun j hjl hjr => h3 hjl (List.mem_cons_of_mem _ hjr)

/-- Two zipper positions of the same id-unambiguous tree with the same
focused id coincide: a node address determines the node's location. -/
theorem zipper_unique :
    ∀ {t : Tree K V}, (inorderIds t).Nodup →
      ∀ {f c f' c'}, plug f c = t → plug f' c' = t → f ≠ .leaf → f' ≠ .leaf →
        focusId f = focusId f' → f = f' ∧ c = c'
  | .leaf, _, f, c, f', c', hp, hp', hne, _, _ => by
    obtain ⟨rfl, -⟩ := plug_eq_leaf hp
    exact absurd rfl hne
  | .node L I KK VV HH R, hnd, f, c, f', c', hp, hp', hne, hne', hfoc => by
    obtain ⟨ndL, ndR, hIL, hIR, hdisj⟩ := nodup_ids_node hnd
    rcases List.eq_nil_or_concat c with rfl | ⟨c0, x, rfl⟩ <;>
      rcases List.eq_nil_or_concat c' with rfl | ⟨c0', x', rfl⟩ <;>
      try simp only [List.concat_eq_append, plug_append] at hp hp'
    · -- both at the root
      simp only [plug] at hp hp'
      exact ⟨hp.trans hp'.symm, rfl⟩
    · -- f at the root, f' strictly below: its id would repeat
      simp only [plug] at hp
      exfalso
      cases x' with
      | fromLeft i k v h r =>
        simp only [plug] at hp'
        obtain ⟨hL, hi, -, -, -, -⟩ := Tree.node.inj hp'
        have hmem : focusId f' ∈ inorderIds L :=
          hL ▸ ids_subset_plug (c := c0') (focusId_mem hne')
        rw [← hfoc, hp] at hmem
        rw [show focusId (Tree.node L I KK VV HH R) = I from rfl] at hmem
        exact hIL hmem
      | fromRight l i k v h =>
        simp only [plug] at hp'
        obtain ⟨-, hi, -, -, -, hR⟩ := Tree.node.inj hp'
        have hmem : focusId f' ∈ inorderIds R :=
          hR ▸ ids_subset_plug (c := c0') (focusId_mem hne')
        rw [← hfoc, hp] at hmem
        rw [show focusId (Tree.node L I KK VV HH R) = I from rfl] at hmem
        exact hIR hmem
    · -- symmetric: f' at the root, f strictly below
      simp only [plug] at hp'
      exfalso
      cases x with
      | fromLeft i k v h r =>
        simp only [plug] at hp
        obtain ⟨hL, hi, -, -, -, -⟩ := Tree.node.inj hp
        have hmem : focusId f ∈ inorderIds L :=
          hL ▸ ids_subset_plug (c := c0) (focusId_mem hne)
        rw [hfoc, hp'] at hmem
        rw [show focusId (Tree.node L I KK VV HH R) = I from rfl] at hmem
        exact hIL hmem
      | fromRight l i k v h =>
        simp only [plug] at hp
        obtain ⟨-, hi, -, -, -, hR⟩ := Tree.node.inj hp
        have hmem : focusId f ∈ inorderIds R :=
          hR ▸ ids_subset_plug (c := c0) (focusId_mem hne)
        rw [hfoc, hp'] at hmem
        rw [show focusId (Tree.node L I KK VV HH R) = I from rfl] at hmem
        exact hIR hmem
    · -- both strictly below: same last crumb side, or an id repeats
      cases x with
      | fromLeft i k v h r =>
        cases x' with
        | fromLeft i' k' v' h' r' =>
          simp only [plug] at hp hp'
          obtain ⟨hL, -, -, -, -, -⟩ := Tree.node.inj hp
          obtain ⟨hL', -, -, -, -, -⟩ := Tree.node.inj hp'
          obtain ⟨rfl, rfl⟩ := zipper_unique (t := L) ndL hL hL' hne hne' hfoc
          obtain ⟨-, rfl, rfl, rfl, rfl, rfl⟩ := Tree.node.inj (hp.trans hp'.symm)
          exact ⟨rfl, rfl⟩
        | fromRight l' i' k' v' h' =>
          simp only [plug] at hp hp'
          obtain ⟨hL, -, -, -, -, -⟩ := Tree.node.inj hp
          obtain ⟨-, -, -, -, -, hR'⟩ := Tree.node.inj hp'
          exfalso
          have hmem : focusId f ∈ inorderIds L :=
            hL ▸ ids_subset_plug (c := c0) (focusId_mem hne)
          have hmem' : focusId f' ∈ inorderIds R :=
            hR' ▸ ids_subset_plug (c := c0') (focusId_mem hne')
          rw [hfoc] at hmem
          exact hdisj _ hmem hmem'
      | fromRight l i k v h =>
        cases x' with
        | fromLeft i' k' v' h' r' =>
          simp only [plug] at hp hp'
          obtain ⟨-, -, -, -, -, hR⟩ := Tree.node.inj hp
          obtain ⟨hL', -, -, -, -, -⟩ := Tree.node.inj hp'
          exfalso
          have hmem : focusId f ∈ inorderIds R :=
            hR ▸ ids_subset_plug (c := c0) (focusId_mem hne)
          have hmem' : focusId f' ∈ inorderIds L :=
            hL' ▸ ids_subset_plug (c := c0') (focusId_mem hne')
          rw [hfoc] at hmem
          exact hdisj _ hmem' hmem
        | fromRight l' i' k' v' h' =>
          simp only [plug] at hp hp'
          obtain ⟨-, -, -, -, -, hR⟩ := Tree.node.inj hp
          obtain ⟨-, -, -, -, -, hR'⟩ := Tree.node.inj hp'
          obtain ⟨rfl, rfl⟩ := zipper_unique (t := R) ndR hR hR' hne hne' hfoc
          obtain ⟨rfl, rfl, rfl, rfl, rfl, -⟩ := Tree.node.inj (hp.trans hp'.symm)
          exact ⟨rfl, rfl⟩

/-- A live node's address finds exactly its own position. -/
theorem findZipper_roundtrip {t : Tree K V} (hnd : (inorderIds t).Nodup)
    {f : Tree K V} {c} (hplug : plug f c = t) (hne : f ≠ .leaf) :
    findZipper (focusId f) t [] = some (f, c) := by
  have hmem : focusId f ∈ inorderIds t := hplug ▸ ids_subset_plug (focusId_mem hne)
  cases heq : findZipper (focusId f) t [] with
  | none =>
    have : (findZipper (focusId f) t []).isSome = true := findZipper_complete hmem
    rw [heq] at this
    simp at this
  | some z =>
    cases z with
    | mk f' c' =>
      obtain ⟨h1, h2, h3⟩ := findZipper_sound heq
      rw [plug] at h1
      obtain ⟨rfl, rfl⟩ := zipper_unique hnd h1 hplug h3 hne h2
      rfl

/-! ## Traversal: the successor walk visits the in-order sequence -/

theorem remKeys_node (l r : Tree K V) (i k v h c) :
    remKeys (.node l i k v h r) c = k :: inorderKeys r ++ ctxKeys c :=
  rfl

theorem zipMin_spec :
    ∀ {t : Tree K V} {ctx f c}, zipMin t ctx = some (f, c) →
      plug f c = plug t ctx ∧
      (∃ i k v h r, f = .node .leaf i k v h r) ∧
      remKeys f c = inorderKeys t ++ ctxKeys ctx ∧
      minId t = some (focusId f)
  | .leaf, ctx, f, c, heq => by simp [zipMin] at heq
  | .node .leaf i k v h r, ctx, f, c, heq => by
    rw [zipMin] at heq
    obtain ⟨rfl, rfl⟩ := Prod.mk.injEq .. ▸ Option.some.inj heq
    refine ⟨rfl, ⟨i, k, v, h, r, rfl⟩, ?_, rfl⟩
    rw [remKeys, inorderKeys_node]
    simp [inorderKeys, entriesT]
  | .node (.node a j b d e f0) i k v h r, ctx, f, c, heq => by
    rw [zipMin] at heq
    obtain ⟨h1, h2, h3, h4⟩ := zipMin_spec heq
    refine ⟨h1, h2, ?_, h4⟩
    rw [h3]
    simp [inorderKeys_node, ctxKeys, List.append_assoc]

theorem zipMin_isSome (a : Tree K V) (j b d e f ctx) :
    (zipMin (.node a j b d e f) ctx).isSome = true := by
  induction a generalizing j b d e f ctx with
  | leaf => simp [zipMin]
  | node a2 j2 b2 d2 e2 f2 iha ihb => rw [zipMin]; exact iha ..

theorem zipMin_fromLeft :
    ∀ {t : Tree K V} {ctx f c}, zipMin t ctx = some (f, c) → AllFromLeft ctx →
      AllFromLeft c
  | .leaf, ctx, f, c, heq, _ => by simp [zipMin] at heq
  | .node .leaf i k v h r, ctx, f, c, heq, hctx => by
    rw [zipMin] at heq
    obtain ⟨rfl, rfl⟩ := Prod.mk.injEq .. ▸ Option.some.inj heq
    exact hctx
  | .node (.node a j b d e f0) i k v h r, ctx, f, c, heq, hctx => by
    rw [zipMin] at heq
    exact zipMin_fromLeft heq hctx

theorem zipUp_spec :
    ∀ {ctx : List (Crumb K V)} {t f c}, zipUp t ctx = some (f, c) →
      plug f c = plug t ctx ∧ f ≠ .leaf ∧ remKeys f c = ctxKeys ctx
  | [], t, f, c, heq => by simp [zipUp] at heq
  | .fromRight l i k v h :: ctx, t, f, c, heq => by
    rw [zipUp] at heq
    obtain ⟨h1, h2, h3⟩ := zipUp_spec heq
    exact ⟨h1, h2, by rw [h3]; rfl⟩
  | .fromLeft i k v h r :: ctx, t, f, c, heq => by
    rw [zipUp] at heq
    obtain ⟨rfl, rfl⟩ := Prod.mk.injEq .. ▸ Option.some.inj heq
    exact ⟨rfl, by simp, rfl⟩

theorem zipUp_none :
    ∀ {ctx : List (Crumb K V)} {t : Tree K V}, zipUp t ctx = none → ctxKeys ctx = []
  | [], t, _ => rfl
  | .fromRight l i k v h :: ctx, t, heq => by
    rw [zipUp] at heq
    rw [ctxKeys]
    exact zipUp_none heq
  | .fromLeft i k v h r :: ctx, t, heq => by simp [zipUp] at heq

theorem zipUpL_none_of_fromLeft :
    ∀ {ctx : List (Crumb K V)}, AllFromLeft ctx →
      ∀ (t : Tree K V), zipUpL t ctx = none := by
  intro ctx
  induction ctx with
  | nil => intro _ t; rfl
  | cons x c ih =>
    intro hctx t
    cases x with
    | fromLeft i k v h r =>
      rw [zipUpL]
      exact ih hctx _
    | fromRight l i k v h => exact absurd hctx (by simp [AllFromLeft])

theorem zipNext_some {l r : Tree K V} {i : Nat} {k : K} {v : V} {h : Nat}
    {c : List (Crumb K V)} {f' c'} (heq : zipNext (.node l i k v h r) c = some (f', c')) :
    plug f' c' = plug (.node l i k v h r) c ∧ f' ≠ .leaf ∧
    remKeys f' c' = inorderKeys r ++ ctxKeys c := by
  cases r with
  | leaf =>
    rw [zipNext] at heq
    obtain ⟨h1, h2, h3⟩ := zipUp_spec heq
    refine ⟨h1, h2, ?_⟩
    rw [h3]
    simp [inorderKeys, entriesT]
  | node a j b d e f0 =>
    rw [zipNext] at heq
    obtain ⟨h1, h2, h3, -⟩ := zipMin_spec heq
    refine ⟨h1, ?_, ?_⟩
    · obtain ⟨_, _, _, _, _, rfl⟩ := h2
      simp
    · rw [h3]
      rfl

theorem zipNext_none {l r : Tree K V} {i : Nat} {k : K} {v : V} {h : Nat}
    {c : List (Crumb K V)} (heq : zipNext (.node l i k v h r) c = none) :
    inorderKeys r ++ ctxKeys c = [] := by
  cases r with
  | leaf =>
    rw [zipNext] at heq
    have := zipUp_none heq
    simp [inorderKeys, entriesT, this]
  | node a j b d e f0 =>
    rw [zipNext] at heq
    have := zipMin_isSome a j b d e f0 (.fromRight l i k v h :: c)
    rw [heq] at this
    simp at this

theorem getById_of_zipper {t : Tree K V} (hnd : (inorderIds t).Nodup)
    {fl : Tree K V} {fi : Nat} {fk : K} {fv : V} {fh : Nat} {fr : Tree K V}
    {c : List (Crumb K V)} (hplug : plug (.node fl fi fk fv fh fr) c = t) :
    getById t fi = some (fk, fv) := by
  rw [getById,
    show fi = focusId (Tree.node fl fi fk fv fh fr) from rfl,
    findZipper_roundtrip hnd hplug (by simp)]

theorem nextNodeId_of_zipper {t : Tree K V} (hnd : (inorderIds t).Nodup)
    {fl : Tree K V} {fi : Nat} {fk : K} {fv : V} {fh : Nat} {fr : Tree K V}
    {c : List (Crumb K V)} (hplug : plug (.node fl fi fk fv fh fr) c = t) :
    nextNodeId t fi =
      some ((zipNext (.node fl fi fk fv fh fr) c).map fun z => focusId z.1) := by
  have hf := findZipper_roundtrip hnd hplug (by simp)
  rw [show focusId (Tree.node fl fi fk fv fh fr) = fi from rfl] at hf
  rw [nextNodeId, hf]

theorem prevNodeId_of_zipper {t : Tree K V} (hnd : (inorderIds t).Nodup)
    {fl : Tree K V} {fi : Nat} {fk : K} {fv : V} {fh : Nat} {fr : Tree K V}
    {c : List (Crumb K V)} (hplug : plug (.node fl fi fk fv fh fr) c = t) :
    prevNodeId t fi =
      some ((zipPrev (.node fl fi fk fv fh fr) c).map fun z => focusId z.1) := by
  have hf := findZipper_roundtrip hnd hplug (by simp)
  rw [show focusId (Tree.node fl fi fk fv fh fr) = fi from rfl] at hf
  rw [prevNodeId, hf]

section TraversalOrdered

variable [LinearOrder K]

/-- The visiting loop started on any live position delivers exactly the
keys that an in-order walk has not yet visited. -/
theorem iterKeysFrom_spec {m : map K V} (hnd : (inorderIds m.root).Nodup) :
    ∀ (fuel : Nat) {f : Tree K V} {c : List (Crumb K V)},
      plug f c = m.root → f ≠ .leaf → (remKeys f c).length ≤ fuel →
      iterKeysFrom m (some (focusId f)) fuel = remKeys f c := by
  intro fuel
  induction fuel with
  | zero =>
    intro f c hplug hne hlen
    cases f with
    | leaf => exact absurd rfl hne
    | node fl fi fk fv fh fr => simp [remKeys] at hlen
  | succ fuel ih =>
    intro f c hplug hne hlen
    cases f with
    | leaf => exact absurd rfl hne
    | node fl fi fk fv fh fr =>
      have hg : getById m.root fi = some (fk, fv) := getById_of_zipper hnd hplug
      have hn := nextNodeId_of_zipper hnd hplug
      rw [show focusId (Tree.node fl fi fk fv fh fr) = fi from rfl]
      cases hnext : zipNext (.node fl fi fk fv fh fr) c with
      | none =>
        rw [hnext, Option.map_none'] at hn
        have hend := zipNext_none hnext
        simp only [iterKeysFrom, hg, hn, remKeys_node, List.cons_append, hend]
      | some z =>
        cases z with
        | mk f' c' =>
          rw [hnext, Option.map_some'] at hn
          obtain ⟨p1, p2, p3⟩ := zipNext_some hnext
          have ihres := ih (p1.trans hplug) p2 (by
            rw [p3]
            rw [remKeys] at hlen
            simp only [List.length_cons, List.length_append] at hlen ⊢
            omega)
          simp only [iterKeysFrom, hg, hn, ihres, p3, remKeys_node, List.cons_append]

/-- Iterating from `begin()` visits exactly the in-order key sequence. -/
theorem iterKeys_eq_inorderKeys {m : map K V} (hnd : (inorderIds m.root).Nodup)
    (hcnt : m.nodeCount = (entriesT m.root).length) :
    iterKeys m = inorderKeys m.root := by
  rw [iterKeys, beginIt]
  cases hroot : m.root with
  | leaf => simp [minId, iterKeysFrom, inorderKeys, entriesT]
  | node a j b d e f =>
    have hsome := zipMin_isSome a j b d e f []
    cases hmin : zipMin (.node a j b d e f) [] with
    | none => rw [hmin] at hsome; simp at hsome
    | some z =>
      cases z with
      | mk f0 c0 =>
        obtain ⟨p1, p2, p3, p4⟩ := zipMin_spec hmin
        rw [p4]
        have hplug : plug f0 c0 = m.root := by
          rw [p1, plug, hroot]
        have hne : f0 ≠ .leaf := by
          obtain ⟨_, _, _, _, _, rfl⟩ := p2
          simp
        have hlen : (remKeys f0 c0).length ≤ m.nodeCount := by
          rw [p3, hcnt, hroot]
          simp [ctxKeys, inorderKeys]
        rw [iterKeysFrom_spec hnd m.nodeCount hplug hne hlen, p3]
        simp [ctxKeys]

end TraversalOrdered

/-- The rightmost node holds the last in-order entry. -/
theorem maxId_last :
    ∀ {t : Tree K V}, t ≠ .leaf →
      ∃ i k v pre, maxId t = some i ∧ entriesT t = pre ++ [(i, k, v)]
  | .leaf, hne => absurd rfl hne
  | .node l i k v h .leaf, _ =>
    ⟨i, k, v, entriesT l, rfl, by simp [entriesT_node, entriesT]⟩
  | .node l i k v h (.node a j b d e f), _ => by
    obtain ⟨i', k', v', pre', h1, h2⟩ := maxId_last (t := .node a j b d e f) (by simp)
    refine ⟨i', k', v', entriesT l ++ (i, k, v) :: pre', ?_, ?_⟩
    · rw [maxId]
      exact h1
    · rw [entriesT_node, h2]
      simp

/-! ## Clone, the master invariant, and its preservation -/

theorem inorderKV_node (l r : Tree K V) (i k v h) :
    inorderKV (.node l i k v h r) = inorderKV l ++ (k, v) :: inorderKV r := by
  simp [inorderKV, entriesT_node]

theorem length_entriesT_eq_kv (t : Tree K V) :
    (entriesT t).length = (inorderKV t).length := by
  simp [inorderKV]

theorem inorderKeys_eq_map_kv (t : Tree K V) :
    inorderKeys t = (inorderKV t).map Prod.fst := by
  simp [inorderKeys, inorderKV]

theorem bst_iff_pairwise_keys [LinearOrder K] {t : Tree K V} :
    Bst t ↔ List.Pairwise (fun a b => a < b) (inorderKeys t) := by
  rw [bst_iff_pairwise, inorderKeys]
  exact (List.pairwise_map).symm

theorem inorderIds_update (t : Tree K V) : inorderIds (update t) = inorderIds t := by
  simp [inorderIds, entriesT_update]

theorem inorderKV_update (t : Tree K V) : inorderKV (update t) = inorderKV t := by
  simp [inorderKV, entriesT_update]

theorem cloneSubtree_spec :
    ∀ {t : Tree K V} {c : Nat} {t' : Tree K V} {c' : Nat},
      cloneSubtree c t = (t', c') →
      c ≤ c' ∧ (∀ j ∈ inorderIds t', c ≤ j ∧ j < c') ∧ (inorderIds t').Nodup ∧
      inorderKV t' = inorderKV t ∧ realH t' = realH t ∧ HOk t' ∧
      (AvlBal t → AvlBal t')
  | .leaf, c, t', c', heq => by
    simp only [cloneSubtree, Prod.mk.injEq] at heq
    obtain ⟨rfl, rfl⟩ := heq
    simp [inorderIds, inorderKV, entriesT, realH, HOk, AvlBal]
  | .node l i k v h r, c, t', c', heq => by
    rw [cloneSubtree] at heq
    cases hpl : cloneSubtree (c + 1) l with
    | mk l' c1 =>
      cases hpr : cloneSubtree c1 r with
      | mk r' c2 =>
        rw [hpl] at heq
        simp only at heq
        rw [hpr] at heq
        simp only [Prod.mk.injEq] at heq
        obtain ⟨rfl, rfl⟩ := heq
        obtain ⟨ih1l, ih2l, ih3l, ih4l, ih5l, ih6l, ih7l⟩ := cloneSubtree_spec hpl
        obtain ⟨ih1r, ih2r, ih3r, ih4r, ih5r, ih6r, ih7r⟩ := cloneSubtree_spec hpr
        have el' := heightOf_eq_realH ih6l
        have er' := heightOf_eq_realH ih6r
        refine ⟨by omega, ?_, ?_, ?_, ?_, ?_, ?_⟩
        · intro j hj
          rw [inorderIds_update, inorderIds_node] at hj
          rcases List.mem_append.mp hj with hjl | hjr
          · have := ih2l j hjl
            omega
          · rcases List.mem_cons.mp hjr with rfl | hjr
            · omega
            · have := ih2r j hjr
              omega
        · rw [inorderIds_update, inorderIds_node, List.nodup_append]
          refine ⟨ih3l, List.nodup_cons.mpr ⟨fun hmem => ?_, ih3r⟩, ?_⟩
          · have := ih2r c hmem
            omega
          · intro a hal har
            have hl2 := ih2l a hal
            rcases List.mem_cons.mp har with rfl | har
            · omega
            · have := ih2r a har
              omega
        · rw [inorderKV_update, inorderKV_node, inorderKV_node, ih4l, ih4r]
        · rw [realH_update, realH_node, realH_node, ih5l, ih5r]
        · rw [update_node, HOk_node, el', er', ih5l, ih5r]
          exact ⟨ih6l, ih6r, rfl⟩
        · intro hb
          obtain ⟨bl, br, d1, d2⟩ := hb
          rw [update_node, AvlBal_node, ih5l, ih5r]
          exact ⟨ih7l bl, ih7r br, d1, d2⟩

section InvPreservation

variable [LinearOrder K]

theorem Inv_new (mid : Nat) : Inv (mapNew mid : map K V) := by
  refine ⟨trivial, trivial, trivial, ?_, ?_, rfl⟩ <;>
    simp [mapNew, inorderIds, entriesT]

theorem Inv_insert {m : map K V} {key : K} {v : V} (hm : Inv m) :
    Inv (mapInsert m key v).1 := by
  rw [mapInsert]
  cases hins : insertAux key v m.nextId m.root with
  | mk t' p =>
    cases p with
    | mk rid fl =>
      cases fl with
      | false => exact hm
      | true =>
        show Inv (map.mk t' (m.nodeCount + 1) (m.nextId + 1) m.mapId)
        obtain ⟨hok, hbal, -, -⟩ := insertAux_inv hm.hok hm.bal hins
        have hfind : findNode key m.root = none := by
          cases hfind : findNode key m.root with
          | none => rfl
          | some e =>
            have : insertAux key v m.nextId m.root = (m.root, e.1, false) :=
              insertAux_dup hfind
            rw [hins] at this
            simp at this
        have hent : entriesT t' = listInsert m.nextId key v (entriesT m.root) :=
          insertAux_entries hm.bst hins
        have hperm : List.Perm (entriesT t') ((m.nextId, key, v) :: entriesT m.root) :=
          hent ▸ listInsert_perm
        have hfresh : ∀ e ∈ entriesT m.root, e.2.1 ≠ key :=
          (findNode_none hm.bst).mp hfind
        refine ⟨?_, hok, hbal, ?_, ?_, ?_⟩
        · show Bst t'
          rw [bst_iff_pairwise, hent]
          exact pairwise_listInsert (bst_iff_pairwise.mp hm.bst) hfresh
        · show (inorderIds t').Nodup
          have hpids : List.Perm (inorderIds t') (m.nextId :: inorderIds m.root) :=
            hperm.map _
          rw [hpids.nodup_iff, List.nodup_cons]
          refine ⟨fun hmem => ?_, hm.nodup⟩
          have := hm.bound _ hmem
          omega
        · show ∀ j ∈ inorderIds t', j < m.nextId + 1
          intro j hj
          have hj2 : j ∈ m.nextId :: inorderIds m.root :=
            (hperm.map Prod.fst).mem_iff.mp hj
          rcases List.mem_cons.mp hj2 with rfl | hj2
          · omega
          · have := hm.bound _ hj2
            omega
        · show m.nodeCount + 1 = (entriesT t').length
          rw [hperm.length_eq]
          simp [hm.cnt]

theorem Inv_erase {m m' : map K V} {pos : iterator} (hm : Inv m)
    (heq : mapErase m pos = .ok m') : Inv m' := by
  rw [mapErase] at heq
  split at heq
  · exact absurd heq (by simp)
  · split at heq
    · exact absurd heq (by simp)
    · rename_i tid hptr
      rw [eraseById] at heq
      cases hfz : findZipper tid m.root [] with
      | none => rw [hfz] at heq; exact absurd heq (by simp)
      | some z =>
        rw [hfz] at heq
        simp only [OpRes.ok.injEq] at heq
        subst heq
        cases z with
        | mk f c =>
          obtain ⟨hplug, hfoc, hne⟩ := findZipper_sound hfz
          rw [plug] at hplug
          cases f with
          | leaf => exact absurd rfl hne
          | node fl fi fk fv fh fr =>
            have hok2 : HOk (plug (.node fl fi fk fv fh fr) c) := hplug ▸ hm.hok
            have hbal2 : AvlBal (plug (.node fl fi fk fv fh fr) c) := hplug ▸ hm.bal
            obtain ⟨zok, zbal, zent⟩ := eraseAtZ_spec hok2 hbal2
            have hold : entriesT m.root =
                ctxL c ++ (entriesT fl ++ (fi, fk, fv) :: entriesT fr) ++ ctxR c := by
              rw [← hplug, entriesT_plug, entriesT_node]
            have hsub : List.Sublist
                (entriesT (eraseAtZ (.node fl fi fk fv fh fr) c))
                (entriesT m.root) := by
              rw [zent, hold]
              exact ((List.Sublist.refl _).append
                ((List.Sublist.refl _).append (List.sublist_cons_self _ _))).append
                (List.Sublist.refl _)
            refine ⟨?_, zok, zbal, ?_, ?_, ?_⟩
            · rw [bst_iff_pairwise]
              exact (bst_iff_pairwise.mp hm.bst).sublist hsub
            · exact hm.nodup.sublist (hsub.map _)
            · intro j hj
              exact hm.bound j ((hsub.map _).mem hj)
            · show m.nodeCount - 1 = _
              rw [zent]
              have := hm.cnt
              rw [hold] at this
              simp only [List.length_append, List.length_cons] at this ⊢
              omega

theorem Inv_clear {m : map K V} : Inv (mapClear m) := by
  refine ⟨trivial, trivial, trivial, ?_, ?_, rfl⟩ <;>
    simp [mapClear, inorderIds, entriesT]

theorem Inv_copy {m : map K V} (mid : Nat) (hm : Inv m) : Inv (mapCopy m mid) := by
  rw [mapCopy]
  cases hcl : cloneSubtree 0 m.root with
  | mk t' c' =>
    obtain ⟨h1, h2, h3, h4, h5, h6, h7⟩ := cloneSubtree_spec hcl
    show Inv (map.mk t' m.nodeCount c' mid)
    refine ⟨?_, h6, h7 hm.bal, h3, ?_, ?_⟩
    · show Bst t'
      rw [bst_iff_pairwise_keys, inorderKeys_eq_map_kv, h4, ← inorderKeys_eq_map_kv,
        ← bst_iff_pairwise_keys]
      exact hm.bst
    · show ∀ j ∈ inorderIds t', j < c'
      intro j hj
      exact (h2 j hj).2
    · show m.nodeCount = (entriesT t').length
      rw [length_entriesT_eq_kv, h4, ← length_entriesT_eq_kv]
      exact hm.cnt

theorem Inv_assign {m src : map K V} (hm : Inv m) (hsrc : Inv src) :
    Inv (mapAssign m src) := by
  simp only [mapAssign]
  split
  · exact hm
  · cases hcl : cloneSubtree (mapClear m).nextId src.root with
    | mk t' c' =>
      obtain ⟨h1, h2, h3, h4, h5, h6, h7⟩ := cloneSubtree_spec hcl
      show Inv (map.mk t' src.nodeCount c' m.mapId)
      refine ⟨?_, h6, h7 hsrc.bal, h3, ?_, ?_⟩
      · show Bst t'
        rw [bst_iff_pairwise_keys, inorderKeys_eq_map_kv, h4, ← inorderKeys_eq_map_kv,
          ← bst_iff_pairwise_keys]
        exact hsrc.bst
      · show ∀ j ∈ inorderIds t', j < c'
        intro j hj
        exact (h2 j hj).2
      · show src.nodeCount = (entriesT t').length
        rw [length_entriesT_eq_kv, h4, ← length_entriesT_eq_kv]
        exact hsrc.cnt

theorem Inv_index {m : map K V} {d : V} {key : K} (hm : Inv m) :
    Inv (mapIndex m d key).1 := by
  rw [mapIndex]
  split
  · exact hm
  · cases hins : mapInsert m key d with
    | mk m' p =>
      cases p with
      | mk it fl =>
        have hinv : Inv (mapInsert m key d).1 := Inv_insert hm
        rw [hins] at hinv
        show Inv ((match it.nodePtr with
          | some rid => (m', (getById m'.root rid).map fun q : K × V => q.2)
          | none => (m', none)).1)
        cases hptr : it.nodePtr with
        | some rid => exact hinv
        | none => exact hinv

/-- Every container reachable through the public interface satisfies the
master invariant. -/
theorem reachable_inv {m : map K V} (hr : Reachable m) : Inv m := by
  induction hr with
  | new mid => exact Inv_new mid
  | insert key v _ ih => exact Inv_insert ih
  | erase _ heq ih => exact Inv_erase ih heq
  | clear _ ih => exact Inv_clear
  | copy mid _ ih => exact Inv_copy mid ih
  | assign _ _ ihm ihs => exact Inv_assign ihm ihs
  | index d key _ ih => exact Inv_index ih

end InvPreservation

/-! ## Support lemmas for the claim theorems -/

theorem mem_nodup_fst_eq :
    ∀ {l : List (Nat × K × V)}, (l.map Prod.fst).Nodup →
      ∀ {e1 e2 : Nat × K × V}, e1 ∈ l → e2 ∈ l → e1.1 = e2.1 → e1 = e2
  | [], _, e1, e2, h1, _, _ => by simp at h1
  | a :: as, hnd, e1, e2, h1, h2, hfst => by
    rw [List.map_cons, List.nodup_cons] at hnd
    obtain ⟨hna, hnd'⟩ := hnd
    rcases List.mem_cons.mp h1 with rfl | h1'
    · rcases List.mem_cons.mp h2 with rfl | h2'
      · rfl
      · rw [hfst] at hna
        exact absurd (List.mem_map_of_mem Prod.fst h2') hna
    · rcases List.mem_cons.mp h2 with rfl | h2'
      · rw [← hfst] at hna
        exact absurd (List.mem_map_of_mem Prod.fst h1') hna
      · exact mem_nodup_fst_eq hnd' h1' h2' hfst

section ClaimSupport

variable [LinearOrder K]

theorem mem_unique_key :
    ∀ {l : List (Nat × K × V)}, List.Pairwise (fun a b => a.2.1 < b.2.1) l →
      ∀ {e1 e2 : Nat × K × V}, e1 ∈ l → e2 ∈ l → e1.2.1 = e2.2.1 → e1 = e2
  | [], _, e1, e2, h1, _, _ => by simp at h1
  | a :: as, hp, e1, e2, h1, h2, hk => by
    rw [List.pairwise_cons] at hp
    obtain ⟨ha, hp'⟩ := hp
    rcases List.mem_cons.mp h1 with rfl | h1'
    · rcases List.mem_cons.mp h2 with rfl | h2'
      · rfl
      · exact absurd (ha e2 h2') (by rw [hk]; exact lt_irrefl _)
    · rcases List.mem_cons.mp h2 with rfl | h2'
      · exact absurd (ha e1 h1') (by rw [← hk]; exact lt_irrefl _)
      · exact mem_unique_key hp' h1' h2' hk

end ClaimSupport

/-- Dereferencing a live address yields exactly the stored pair. -/
theorem getById_mem {t : Tree K V} (hnd : (inorderIds t).Nodup)
    {i : Nat} {k : K} {v : V} (hmem : (i, k, v) ∈ entriesT t) :
    getById t i = some (k, v) := by
  have hid : i ∈ inorderIds t := by
    rw [inorderIds]
    exact List.mem_map_of_mem _ hmem
  cases hfz : findZipper i t [] with
  | none =>
    have : (findZipper i t []).isSome = true := findZipper_complete hid
    rw [hfz] at this
    simp at this
  | some z =>
    cases z with
    | mk f c =>
      obtain ⟨hplug, hfoc, hne⟩ := findZipper_sound hfz
      rw [plug] at hplug
      cases f with
      | leaf => exact absurd rfl hne
      | node fl fi fk fv fh fr =>
        have hfi : fi = i := hfoc
        subst hfi
        have hmem2 : (fi, fk, fv) ∈ entriesT t := by
          rw [← hplug, entriesT_plug, entriesT_node]
          simp
        have := mem_nodup_fst_eq (l := entriesT t) hnd hmem2 hmem rfl
        obtain ⟨-, rfl, rfl⟩ := Prod.mk.injEq .. ▸ this
        rw [getById, hfz]

/-- `prevNode` of the minimum is null: the `minNode` descent leaves only
left-child crumbs, so the upward walk of `prevNode` exhausts them. -/
theorem prevNodeId_min {t : Tree K V} (hnd : (inorderIds t).Nodup)
    (hne : t ≠ .leaf) :
    ∃ j, minId t = some j ∧ prevNodeId t j = some none := by
  cases t with
  | leaf => exact absurd rfl hne
  | node a j0 b d e f =>
    have hsome := zipMin_isSome a j0 b d e f []
    cases hmin : zipMin (.node a j0 b d e f) [] with
    | none => rw [hmin] at hsome; simp at hsome
    | some z =>
      cases z with
      | mk f0 c0 =>
        obtain ⟨p1, p2, p3, p4⟩ := zipMin_spec hmin
        obtain ⟨i, k, v, h, r, rfl⟩ := p2
        have hafl : AllFromLeft c0 := zipMin_fromLeft hmin trivial
        have hplug : plug (.node .leaf i k v h r) c0 = .node a j0 b d e f := by
          rw [p1, plug]
        refine ⟨i, by rw [p4]; rfl, ?_⟩
        rw [prevNodeId_of_zipper hnd hplug]
        rw [show zipPrev (Tree.node .leaf i k v h r) c0 =
          zipUpL (.node .leaf i k v h r) c0 from rfl]
        rw [zipUpL_none_of_fromLeft hafl]
        rfl

section FreshInsert

variable [LinearOrder K]

/-- Shared description of a successful insertion at the `map` level: the
fresh node carries id `nextId`, the returned iterator points at it, the
counters advance, and the entry list gains exactly the new entry at its
sorted position. -/
theorem insert_fresh_spec {m : map K V} (hm : Inv m) {key : K} {v : V}
    (hfind : findNode key m.root = none) :
    ∃ t', mapInsert m key v =
        (map.mk t' (m.nodeCount + 1) (m.nextId + 1) m.mapId,
         ⟨some m.nextId, some m.mapId⟩, true) ∧
      entriesT t' = listInsert m.nextId key v (entriesT m.root) ∧
      getById t' m.nextId = some (key, v) := by
  cases hins : insertAux key v m.nextId m.root with
  | mk t' p =>
    cases p with
    | mk rid fl =>
      have hnw : (insertAux key v m.nextId m.root).2.2 = true ∧
          (insertAux key v m.nextId m.root).2.1 = m.nextId := insertAux_new hfind
      obtain ⟨hfl, hrid⟩ := hnw
      rw [hins] at hfl hrid
      simp only at hfl hrid
      subst hfl
      subst hrid
      have hent : entriesT t' = listInsert m.nextId key v (entriesT m.root) :=
        insertAux_entries hm.bst hins
      have hinv : Inv (mapInsert m key v).1 := Inv_insert hm
      rw [mapInsert, hins] at hinv
      refine ⟨t', by rw [mapInsert, hins], hent, ?_⟩
      refine getById_mem ?_ ?_
      · exact hinv.nodup
      · rw [hent]
        exact mem_listInsert.mpr (Or.inl rfl)

end FreshInsert

/-! ## Claim theorems and witnesses -/

section Claims

variable [LinearOrder K]

/-- C1: after every public operation (construction, `insert`, `erase`,
`clear`, copy-construction, copy-assignment, `operator[]`), every node of
the tree satisfies the AVL balance condition — the heights of its left and
right subtrees differ by at most 1 — and every node's cached height equals
1 + the maximum of its children's heights, absent children counting as
height 0. -/
theorem claim1_balance_and_height_invariant (m : map K V) (hr : Reachable m) :
    HOk m.root ∧ AvlBal m.root :=
  ⟨(reachable_inv hr).hok, (reachable_inv hr).bal⟩

/-- C2: for every container reachable by public operations, iterating with
cursor increment from `begin()` until `end()` visits exactly the stored
keys, in strictly increasing comparator order, and BST ordering holds at
every node. -/
theorem claim2_iteration_strictly_increasing (m : map K V) (hr : Reachable m) :
    iterKeys m = inorderKeys m.root ∧
    List.Pairwise (fun a b => a < b) (iterKeys m) ∧ Bst m.root := by
  have hi := reachable_inv hr
  have he := iterKeys_eq_inorderKeys hi.nodup hi.cnt
  refine ⟨he, ?_, hi.bst⟩
  rw [he]
  exact bst_iff_pairwise_keys.mp hi.bst

/-- C9: self-assignment is a no-op: `a = a` returns immediately through the
`this == &other` guard, leaving entries, size and tree structure unchanged
and destroying nothing. -/
theorem claim9_self_assignment (m : map K V) : mapAssign m m = m := by
  simp [mapAssign]

end Claims

/-- C10: every operation on a default-constructed (ownerless) cursor —
increment, decrement, or dereference — raises the invalid-cursor error,
and dereferencing any cursor that holds no node (including `end()`) raises
it as well. -/
theorem claim10_ownerless_cursor (mOpt : Option (map K V)) (it : iterator) :
    iterInc (none : Option (map K V)) it = .err ∧
    iterDec (none : Option (map K V)) it = .err ∧
    iterDeref mOpt (⟨none, none⟩ : iterator) = .err ∧
    (it.nodePtr = none → iterDeref mOpt it = .err) := by
  refine ⟨rfl, rfl, rfl, ?_⟩
  cases it with
  | mk np ow =>
    intro h
    simp only at h
    subst h
    rfl

theorem claim1_witness :
    Reachable ((mapInsert (mapInsert (mapNew 0) (2 : Int) (20 : Int)).1 1 10).1) ∧
    (HOk ((mapInsert (mapInsert (mapNew 0) (2 : Int) (20 : Int)).1 1 10).1).root ∧
     AvlBal ((mapInsert (mapInsert (mapNew 0) (2 : Int) (20 : Int)).1 1 10).1).root) :=
  have h : Reachable ((mapInsert (mapInsert (mapNew 0) (2 : Int) (20 : Int)).1 1 10).1) :=
    .insert 1 10 (.insert 2 20 (.new 0))
  ⟨h, claim1_balance_and_height_invariant _ h⟩

theorem claim2_witness :
    Reachable ((mapInsert (mapInsert (mapNew 0) (5 : Int) (50 : Int)).1 3 30).1) ∧
    (iterKeys ((mapInsert (mapInsert (mapNew 0) (5 : Int) (50 : Int)).1 3 30).1) =
      inorderKeys ((mapInsert (mapInsert (mapNew 0) (5 : Int) (50 : Int)).1 3 30).1).root ∧
     List.Pairwise (fun a b => a < b)
      (iterKeys ((mapInsert (mapInsert (mapNew 0) (5 : Int) (50 : Int)).1 3 30).1)) ∧
     Bst ((mapInsert (mapInsert (mapNew 0) (5 : Int) (50 : Int)).1 3 30).1).root) :=
  have h : Reachable ((mapInsert (mapInsert (mapNew 0) (5 : Int) (50 : Int)).1 3 30).1) :=
    .insert 3 30 (.insert 5 50 (.new 0))
  ⟨h, claim2_iteration_strictly_increasing _ h⟩

theorem claim10_witness :
    iterInc (none : Option (map Int Int)) ⟨none, none⟩ = .err ∧
    iterDec (none : Option (map Int Int)) ⟨none, none⟩ = .err ∧
    iterDeref (none : Option (map Int Int)) ⟨none, none⟩ = .err :=
  ⟨(claim10_ownerless_cursor none ⟨none, none⟩).1,
   (claim10_ownerless_cursor none ⟨none, none⟩).2.1,
   (claim10_ownerless_cursor (none : Option (map Int Int)) ⟨none, none⟩).2.2.2 rfl⟩

section MoreClaims

variable [LinearOrder K]

/-- C3: inserting an entry whose key is already stored returns an iterator
to the existing node and the flag `false` with no mutation at all — the
container value, hence size, tree structure and the stored value, is
returned unchanged; inserting a fresh key adds exactly one node (the entry
list gains exactly the new entry, at its sorted place), increments the size
by one, and returns the flag `true` with an iterator to the new node, which
holds the inserted pair.  The last conjunct identifies "key equivalent to a
stored key" with the success of the search descent. -/
theorem claim3_insert_semantics (m : map K V) (hr : Reachable m) (key : K) (v : V) :
    (∀ e, findNode key m.root = some e →
      mapInsert m key v = (m, ⟨some e.1, some m.mapId⟩, false) ∧
      e ∈ entriesT m.root ∧ e.2.1 = key) ∧
    (findNode key m.root = none →
      ∃ t', mapInsert m key v =
          (map.mk t' (m.nodeCount + 1) (m.nextId + 1) m.mapId,
           ⟨some m.nextId, some m.mapId⟩, true) ∧
        entriesT t' = listInsert m.nextId key v (entriesT m.root) ∧
        getById t' m.nextId = some (key, v)) ∧
    (findNode key m.root = none ↔ ∀ e ∈ entriesT m.root, e.2.1 ≠ key) := by
  refine ⟨?_, ?_, findNode_none (reachable_inv hr).bst⟩
  · intro e he
    have hdup : insertAux key v m.nextId m.root = (m.root, e.1, false) :=
      insertAux_dup he
    exact ⟨by rw [mapInsert, hdup], (findNode_mem he).1, (findNode_mem he).2⟩
  · intro hf
    exact insert_fresh_spec (reachable_inv hr) hf

/-- C4 (amended): `erase` raises the invalid-cursor error, mutating
nothing, when the cursor is owned by a different container (or is
ownerless) and when it is the end cursor of this container; erasing a valid
cursor to a live node removes exactly that node and decrements the size by
one.  A STALE cursor (same owner, node already deleted) is NOT detected:
the source dereferences the dangling pointer without any check, which is
undefined behaviour (`OpRes.ub`), not the invalid-cursor error. -/
theorem claim4_erase_amended (m : map K V) (hr : Reachable m) (pos : iterator) :
    (pos.owner ≠ some m.mapId → mapErase m pos = .err) ∧
    (pos.owner = some m.mapId → pos.nodePtr = none → mapErase m pos = .err) ∧
    (∀ i, pos.owner = some m.mapId → pos.nodePtr = some i →
      i ∉ inorderIds m.root → mapErase m pos = .ub) ∧
    (∀ i, pos.owner = some m.mapId → pos.nodePtr = some i → i ∈ inorderIds m.root →
      ∃ m' k v pre post, mapErase m pos = .ok m' ∧
        m.nodeCount = m'.nodeCount + 1 ∧
        entriesT m.root = pre ++ (i, k, v) :: post ∧
        entriesT m'.root = pre ++ post) := by
  have hm := reachable_inv hr
  refine ⟨?_, ?_, ?_, ?_⟩
  · intro h
    rw [mapErase, if_pos h]
  · intro ho hn
    rw [mapErase, if_neg (by simp [ho]), hn]
  · intro i ho hn hmem
    have hz : findZipper i m.root [] = none := by
      cases hfz : findZipper i m.root [] with
      | none => rfl
      | some z =>
        cases z with
        | mk f c =>
          obtain ⟨hp, hfoc, hne⟩ := findZipper_sound hfz
          rw [plug] at hp
          exact absurd (hfoc ▸ hp ▸ ids_subset_plug (c := c) (focusId_mem hne)) hmem
    rw [mapErase, if_neg (by simp [ho]), hn]
    simp only [eraseById]
    rw [hz]
  · intro i ho hn hmem
    cases hfz : findZipper i m.root [] with
    | none =>
      have : (findZipper i m.root []).isSome = true := findZipper_complete hmem
      rw [hfz] at this
      simp at this
    | some z =>
      cases z with
      | mk f c =>
        obtain ⟨hp, hfoc, hne⟩ := findZipper_sound hfz
        rw [plug] at hp
        cases f with
        | leaf => exact absurd rfl hne
        | node fl fi fk fv fh fr =>
          have hfi : fi = i := hfoc
          subst hfi
          have hok2 : HOk (plug (.node fl fi fk fv fh fr) c) := hp ▸ hm.hok
          have hbal2 : AvlBal (plug (.node fl fi fk fv fh fr) c) := hp ▸ hm.bal
          obtain ⟨zok, zbal, zent⟩ := eraseAtZ_spec hok2 hbal2
          have hold : entriesT m.root =
              (ctxL c ++ entriesT fl) ++ (fi, fk, fv) :: (entriesT fr ++ ctxR c) := by
            rw [← hp, entriesT_plug, entriesT_node]
            simp [List.append_assoc]
          refine ⟨map.mk (eraseAtZ (.node fl fi fk fv fh fr) c) (m.nodeCount - 1)
              m.nextId m.mapId,
            fk, fv, ctxL c ++ entriesT fl, entriesT fr ++ ctxR c, ?_, ?_, hold, ?_⟩
          · rw [mapErase, if_neg (by simp [ho]), hn]
            simp only [eraseById]
            rw [hfz]
          · show m.nodeCount = m.nodeCount - 1 + 1
            have hc := hm.cnt
            rw [hold] at hc
            simp only [List.length_append, List.length_cons] at hc
            omega
          · show entriesT (eraseAtZ (.node fl fi fk fv fh fr) c) = _
            rw [zent]
            simp [List.append_assoc]

/-- C6: incrementing the end cursor and decrementing the begin cursor both
raise the invalid-cursor error; decrementing the end cursor raises the
error on an empty container and on a non-empty one yields a cursor to the
node holding the maximum key. -/
theorem claim6_cursor_boundary (m : map K V) (hr : Reachable m) :
    iterInc (some m) (endIt m) = .err ∧
    iterDec (some m) (beginIt m) = .err ∧
    (m.root = .leaf → iterDec (some m) (endIt m) = .err) ∧
    (m.root ≠ .leaf → ∃ j k v, iterDec (some m) (endIt m) = .ok ⟨some j, some m.mapId⟩ ∧
      getById m.root j = some (k, v) ∧ ∀ k2 ∈ inorderKeys m.root, k2 ≤ k) := by
  have hm := reachable_inv hr
  refine ⟨rfl, ?_, ?_, ?_⟩
  · by_cases hleaf : m.root = .leaf
    · simp [iterDec, beginIt, hleaf, minId, maxId]
    · obtain ⟨j, hmin, hprev⟩ := prevNodeId_min hm.nodup hleaf
      simp [iterDec, beginIt, hmin, hprev]
  · intro hleaf
    simp [iterDec, endIt, hleaf, maxId]
  · intro hne
    obtain ⟨i, k, v, pre, hmax, hent⟩ := maxId_last hne
    refine ⟨i, k, v, ?_, ?_, ?_⟩
    · simp [iterDec, endIt, hmax]
    · exact getById_mem hm.nodup (by rw [hent]; simp)
    · intro k2 hk2
      rw [inorderKeys, hent, List.map_append] at hk2
      have hp := bst_iff_pairwise.mp hm.bst
      rw [hent, List.pairwise_append] at hp
      rcases List.mem_append.mp hk2 with hk2l | hk2r
      · obtain ⟨e, he, rfl⟩ := List.mem_map.mp hk2l
        exact le_of_lt (hp.2.2 e he (i, k, v) (List.mem_singleton_self _))
      · rw [List.mem_map] at hk2r
        obtain ⟨e, he, rfl⟩ := hk2r
        rw [List.mem_singleton.mp he]

/-- C7: `at` returns the mapped value when the key is present and raises
the not-found error when absent; non-const indexed access returns the
mapped value, inserting the default value and growing the size by one
exactly when the key is absent; const indexed access never inserts and
raises not-found when the key is absent. -/
theorem claim7_at_and_index (m : map K V) (hr : Reachable m) (key : K) (d : V) :
    (∀ v, (key, v) ∈ inorderKV m.root →
      mapAt m key = .ok v ∧ mapIndexC m key = .ok v ∧
      mapIndex m d key = (m, some v)) ∧
    (key ∉ inorderKeys m.root →
      mapAt m key = .error () ∧ mapIndexC m key = .error () ∧
      (mapIndex m d key).2 = some d ∧
      (mapIndex m d key).1.nodeCount = m.nodeCount + 1) := by
  have hm := reachable_inv hr
  constructor
  · intro v hv
    obtain ⟨e0, he0, heq0⟩ := List.mem_map.mp hv
    obtain ⟨hk0, hv0⟩ := Prod.mk.injEq .. ▸ heq0
    cases hfind : findNode key m.root with
    | none =>
      exact absurd hk0 ((findNode_none hm.bst).mp hfind e0 he0)
    | some e =>
      obtain ⟨hmem, hkey⟩ := findNode_mem hfind
      have : e0 = e := mem_unique_key (bst_iff_pairwise.mp hm.bst) he0 hmem
        (by rw [hk0, hkey])
      subst this
      subst hv0
      exact ⟨by rw [mapAt, hfind], by rw [mapIndexC, hfind],
        by rw [mapIndex, hfind]⟩
  · intro habs
    have hfind : findNode key m.root = none := by
      refine (findNode_none hm.bst).mpr fun e he hk => habs ?_
      rw [← hk]
      exact List.mem_map_of_mem _ he
    obtain ⟨t', hmap, hent, hget⟩ := insert_fresh_spec (v := d) hm hfind
    refine ⟨by rw [mapAt, hfind], by rw [mapIndexC, hfind], ?_, ?_⟩
    · rw [mapIndex, hfind, hmap]
      simp [hget]
    · rw [mapIndex, hfind, hmap]

/-- C8: copy-construction and copy-assignment produce a copy holding
exactly the source's key-value entries and size.  In this embedding the
independence half of the claim is definitional: `cloneSubtree` builds new
nodes (fresh ids, no structure shared with the source), and every
operation is a pure function of the operated-on map value alone, so no
mutation of the copy can change the source's entry list, nor conversely. -/
theorem claim8_copy_independence (m : map K V) (hr : Reachable m) (mid : Nat)
    (dst : map K V) (hne : dst.mapId ≠ m.mapId) :
    inorderKV (mapCopy m mid).root = inorderKV m.root ∧
    mapSize (mapCopy m mid) = mapSize m ∧
    inorderKV (mapAssign dst m).root = inorderKV m.root ∧
    mapSize (mapAssign dst m) = mapSize m := by
  refine ⟨?_, rfl, ?_, ?_⟩
  · rw [mapCopy]
    cases hcl : cloneSubtree 0 m.root with
    | mk t' c' =>
      exact (cloneSubtree_spec hcl).2.2.2.1
  · simp only [mapAssign, if_neg hne]
    exact (cloneSubtree_spec (c := (mapClear dst).nextId) (t := m.root) rfl).2.2.2.1
  · simp only [mapAssign, if_neg hne, mapSize]

end MoreClaims

/-- C4, the claim as frozen, is false on the code: a stale cursor — owner
intact, node already deleted — does not raise the invalid-cursor error;
`erase` passes its checks and dereferences the freed node (undefined
behaviour).  Concretely: insert keys 1 and 2, keep the cursor to key 1
(node id 0), erase it once, then erase through the same cursor again. -/
theorem claim4_counterexample :
    (let m0 : map Int Int := (mapInsert (mapInsert (mapNew 0) 1 10).1 2 20).1
     let it := mapFind m0 1
     let m1 := match mapErase m0 it with
       | .ok m2 => m2
       | _ => mapNew 99
     it.owner = some m1.mapId ∧ it.nodePtr = some 0 ∧
     (0 : Nat) ∉ inorderIds m1.root ∧
     mapErase m1 it = OpRes.ub ∧ mapErase m1 it ≠ OpRes.err) := by
  decide

/-- C5: the failing input evaluated on the code.  The receiver holds the
entry (1, 10); assignment from a one-entry source whose very first node
copy throws (`fuel = 0`) propagates the exception, and the receiver is
left already cleared: `operator=` runs `clear()` BEFORE cloning
(destroy-then-clone), so the old contents are destroyed even though the
clone never completed. -/
theorem claim5_destroy_then_clone :
    inorderKV ((mapInsert (mapNew 0) (1 : Int) (10 : Int)).1).root = [(1, 10)] ∧
    mapAssignF (mapInsert (mapNew 0) (1 : Int) (10 : Int)).1
      (mapInsert (mapNew 1) (2 : Int) (20 : Int)).1 0 =
      .error (mapClear (mapInsert (mapNew 0) (1 : Int) (10 : Int)).1) ∧
    inorderKV (mapClear (mapInsert (mapNew 0) (1 : Int) (10 : Int)).1).root = [] ∧
    (mapClear (mapInsert (mapNew 0) (1 : Int) (10 : Int)).1).nodeCount = 0 :=
  ⟨by decide, rfl, by decide, by decide⟩

theorem claim3_witness :
    Reachable exMapA ∧
    ((∀ e, findNode 7 exMapA.root = some e →
      mapInsert exMapA 7 71 = (exMapA, ⟨some e.1, some exMapA.mapId⟩, false) ∧
      e ∈ entriesT exMapA.root ∧ e.2.1 = 7) ∧
    (findNode 7 exMapA.root = none →
      ∃ t', mapInsert exMapA 7 71 =
          (map.mk t' (exMapA.nodeCount + 1) (exMapA.nextId + 1) exMapA.mapId,
           ⟨some exMapA.nextId, some exMapA.mapId⟩, true) ∧
        entriesT t' = listInsert exMapA.nextId 7 71 (entriesT exMapA.root) ∧
        getById t' exMapA.nextId = some (7, 71)) ∧
    (findNode 7 exMapA.root = none ↔ ∀ e ∈ entriesT exMapA.root, e.2.1 ≠ 7)) :=
  have h : Reachable exMapA := .insert 7 70 (.new 0)
  ⟨h, claim3_insert_semantics exMapA h 7 71⟩

theorem claim4_witness :
    Reachable exMapB ∧
    (((mapFind exMapB 4).owner ≠ some exMapB.mapId →
      mapErase exMapB (mapFind exMapB 4) = .err) ∧
    ((mapFind exMapB 4).owner = some exMapB.mapId →
      (mapFind exMapB 4).nodePtr = none →
      mapErase exMapB (mapFind exMapB 4) = .err) ∧
    (∀ i, (mapFind exMapB 4).owner = some exMapB.mapId →
      (mapFind exMapB 4).nodePtr = some i →
      i ∉ inorderIds exMapB.root → mapErase exMapB (mapFind exMapB 4) = .ub) ∧
    (∀ i, (mapFind exMapB 4).owner = some exMapB.mapId →
      (mapFind exMapB 4).nodePtr = some i →
      i ∈ inorderIds exMapB.root →
      ∃ m' k v pre post, mapErase exMapB (mapFind exMapB 4) = .ok m' ∧
        exMapB.nodeCount = m'.nodeCount + 1 ∧
        entriesT exMapB.root = pre ++ (i, k, v) :: post ∧
        entriesT m'.root = pre ++ post)) :=
  have h : Reachable exMapB := .insert 4 40 (.new 0)
  ⟨h, claim4_erase_amended exMapB h (mapFind exMapB 4)⟩

theorem claim6_witness :
    Reachable exMapC ∧
    (iterInc (some exMapC) (endIt exMapC) = .err ∧
    iterDec (some exMapC) (beginIt exMapC) = .err ∧
    (exMapC.root = .leaf → iterDec (some exMapC) (endIt exMapC) = .err) ∧
    (exMapC.root ≠ .leaf →
      ∃ j k v, iterDec (some exMapC) (endIt exMapC) = .ok ⟨some j, some exMapC.mapId⟩ ∧
        getById exMapC.root j = some (k, v) ∧
        ∀ k2 ∈ inorderKeys exMapC.root, k2 ≤ k)) :=
  have h : Reachable exMapC := .insert 9 90 (.insert 1 10 (.new 0))
  ⟨h, claim6_cursor_boundary exMapC h⟩

theorem claim7_witness :
    Reachable exMapD ∧
    ((∀ v, ((6 : Int), v) ∈ inorderKV exMapD.root →
      mapAt exMapD 6 = .ok v ∧ mapIndexC exMapD 6 = .ok v ∧
      mapIndex exMapD 0 6 = (exMapD, some v)) ∧
    ((6 : Int) ∉ inorderKeys exMapD.root →
      mapAt exMapD 6 = .error () ∧ mapIndexC exMapD 6 = .error () ∧
      (mapIndex exMapD 0 6).2 = some 0 ∧
      (mapIndex exMapD 0 6).1.nodeCount = exMapD.nodeCount + 1)) :=
  have h : Reachable exMapD := .insert 6 60 (.new 0)
  ⟨h, claim7_at_and_index exMapD h 6 0⟩

theorem claim8_witness :
    Reachable exMapE ∧ (mapNew 5 : map Int Int).mapId ≠ exMapE.mapId ∧
    (inorderKV (mapCopy exMapE 9).root = inorderKV exMapE.root ∧
     mapSize (mapCopy exMapE 9) = mapSize exMapE ∧
     inorderKV (mapAssign (mapNew 5) exMapE).root = inorderKV exMapE.root ∧
     mapSize (mapAssign (mapNew 5) exMapE) = mapSize exMapE) :=
  have h : Reachable exMapE := .insert 3 30 (.new 0)
  ⟨h, by decide, claim8_copy_independence exMapE h 9 (mapNew 5) (by decide)⟩

end Sjtu
